import Mathlib

/-!
# cookieEditor: the Netscape cookie file codec

A shallow embedding of `cookie-editor.go` (package `cookieEditor`) and the
properties of its parser, of its query operations, of its two renderings and
of its load operations.

* A Go `string` is a finite sequence of bytes: `Str`.
* `bufio.Scanner` with the default split function `bufio.ScanLines` and the
  default buffer bound `bufio.MaxScanTokenSize` is embedded as `scanLines`,
  which yields the tokens the loop `for s.Scan()` sees and the value of
  `s.Err()` after the loop.
* The reader handed to `Parse` is one that delivers its bytes and then end of
  file, as `strings.NewReader` does.
* An error value is embedded by its kind and its argument.
* What the package takes from other packages to render a record,
  `time.Time.String` and `json.Marshal`, is an argument of the rendering.
* A reader is embedded by what `io.ReadAll` makes of it, a writer by the one
  call `io.WriteString` makes, the file system by what `os.OpenFile` returns.
-/

namespace CookieEditor

/-! ## Strings -/

/-- A Go string: a finite sequence of bytes. -/
abbrev Str := List UInt8

/-- The bytes (UTF-8) of a string literal of the source. -/
def bytes (s : String) : Str := s.toUTF8.data.toList

/-- The byte `'\t'`. -/
abbrev tab : UInt8 := 9

/-- The byte `'\n'`. -/
abbrev newline : UInt8 := 10

/-- The byte `'\r'`. -/
abbrev carriageReturn : UInt8 := 13

/-- The byte `'#'`. -/
abbrev hash : UInt8 := 35

/-- Go `strings.HasPrefix(s, pre)`: `s` begins with `pre`. -/
def HasPrefix (s pre : Str) : Bool := pre.isPrefixOf s

/-- Put a byte in front of the first piece of a split. -/
def consHead (b : UInt8) : List Str → List Str
  | [] => [[b]]
  | p :: ps => (b :: p) :: ps

/-- Go `strings.Split(s, sep)` for a separator `sep` of one byte: the pieces of
`s` between the occurrences of `sep`, one more than there are occurrences. -/
def Split (s : Str) (sep : UInt8) : List Str :=
  match s with
  | [] => [[]]
  | b :: rest => if b = sep then [] :: Split rest sep else consHead b (Split rest sep)

/-! ## strconv.ParseInt -/

/-- The two kinds of `*strconv.NumError`: `ErrSyntax` and `ErrRange`. -/
inductive NumError where
  | ErrSyntax
  | ErrRange
  deriving DecidableEq, Repr

/-- The digit loop of Go `strconv.ParseUint(s, 10, 64)`: `n` is the value read
so far. A byte that is no decimal digit is a syntax error; a value above
`2^64 - 1` is a range error. -/
def parseUintLoop : Str → Nat → Except NumError Nat
  | [], n => .ok n
  | c :: rest, n =>
    if 48 ≤ c.toNat ∧ c.toNat ≤ 57 then
      if 2 ^ 64 ≤ n * 10 + (c.toNat - 48) then .error .ErrRange
      else parseUintLoop rest (n * 10 + (c.toNat - 48))
    else .error .ErrSyntax

/-- Go `strconv.ParseUint(s, 10, 64)`. -/
def ParseUint (s : Str) : Except NumError Nat :=
  if s = [] then .error .ErrSyntax else parseUintLoop s 0

/-- Go `strconv.ParseInt(s, 10, 64)`: an optional sign `+` or `-`, then decimal
digits; the value has to lie in the signed 64-bit range. -/
def ParseInt (s : Str) : Except NumError Int :=
  match s with
  | [] => .error .ErrSyntax
  | c :: rest =>
    let neg : Bool := c = 45
    let digits : Str := if c = 43 ∨ c = 45 then rest else c :: rest
    match ParseUint digits with
    | .error e => .error e
    | .ok un =>
      if neg = false ∧ 2 ^ 63 ≤ un then .error .ErrRange
      else if neg = true ∧ 2 ^ 63 < un then .error .ErrRange
      else .ok (if neg then - (un : Int) else (un : Int))

/-! ## time.Time -/

/-- The value of a Go `int64` computation: the integer wrapped into the range
from `-2^63` to `2^63 - 1`. -/
def toInt64 (x : Int) : Int :=
  (x + 9223372036854775808) % 18446744073709551616 - 9223372036854775808

/-- The constant `unixToInternal` of package `time`: the seconds from January
1 of the year 1 to the Unix epoch. -/
def unixToInternal : Int := 62135596800

/-- A Go `time.Time` without a monotonic clock reading. Go keeps the seconds
since January 1 of the year 1 in an `int64`; `sec` is this number less
`unixToInternal`, the seconds since the Unix epoch, so `sec + unixToInternal`
lies in the range of `int64`. `nsec` is the nanoseconds within the second. -/
structure Time where
  sec : Int
  nsec : Nat
  secRange : -9223372036854775808 ≤ sec + 62135596800 ∧
    sec + 62135596800 < 9223372036854775808 := by decide
  nsecRange : nsec < 1000000000 := by decide
  deriving DecidableEq, Repr

/-- Go `time.Unix(sec, nsec)`: nanoseconds outside `[0, 1e9)` are carried into
the seconds, and the seconds since the year 1, `sec + unixToInternal`, wrap as
an `int64` does. -/
def Time.Unix (sec nsec : Int) : Time :=
  { sec := toInt64 (sec + nsec / 1000000000 + unixToInternal) - unixToInternal,
    nsec := (nsec % 1000000000).toNat,
    secRange := by unfold toInt64 unixToInternal; omega,
    nsecRange := by omega }

/-- Go `t.Before(u)` for times without a monotonic clock reading: the seconds
since the year 1 are compared, then the nanoseconds. The two `sec` differ from
these seconds by the same constant, so they compare alike. -/
def Time.Before (t u : Time) : Bool :=
  decide (t.sec < u.sec) || (decide (t.sec = u.sec) && decide (t.nsec < u.nsec))

/-! ## Cookies -/

/-- A Netscape cookie (`type Cookie struct`). -/
structure Cookie where
  Domain : Str
  Expires : Time
  HttpOnly : Bool
  Name : Str
  Path : Str
  Secure : Bool
  Value : Str
  deriving DecidableEq, Repr

/-- The collection type `Cookies`, a slice of pointers to cookies, none of them
nil (`Parse` builds no nil pointer). -/
abbrev Cookies := List Cookie

/-- The errors `Parse` returns: `fmt.Errorf("invalid line: %q", line)`,
`fmt.Errorf("invalid expires: %v", err)`, and the scanner error
`bufio.ErrTooLong` (token too long). -/
inductive ParseError where
  | invalidLine (line : Str)
  | invalidExpires (err : NumError)
  | ErrTooLong
  deriving DecidableEq, Repr

/-! ## bufio.Scanner -/

/-- Go `bufio.MaxScanTokenSize`: the size the scanner buffer may grow to. -/
def MaxScanTokenSize : Nat := 64 * 1024

/-- The `dropCR` of package `bufio`: drop one final `'\r'`. -/
def dropCR (data : Str) : Str :=
  if data.getLast? = some carriageReturn then data.dropLast else data

/-- What a scanner hands to its loop: the tokens of the successful calls of
`Scan`, in order, and the value of `Err()` once `Scan` has returned false. -/
structure Scanned where
  tokens : List Str
  err : Option ParseError
  deriving DecidableEq, Repr

/-- The scanner run over the pieces of the input between its newlines. A piece
of `MaxScanTokenSize` bytes or more fills the buffer before its end is found:
the scan stops there with `ErrTooLong`. Every other piece is a token, without
its final `'\r'`; the piece after the last newline is a token only when it is
not empty. -/
def scanPieces : List Str → Scanned
  | [] => { tokens := [], err := none }
  | [last] =>
    if MaxScanTokenSize ≤ last.length then { tokens := [], err := some .ErrTooLong }
    else if last = [] then { tokens := [], err := none }
    else { tokens := [dropCR last], err := none }
  | piece :: next :: rest =>
    if MaxScanTokenSize ≤ piece.length then { tokens := [], err := some .ErrTooLong }
    else
      { tokens := dropCR piece :: (scanPieces (next :: rest)).tokens,
        err := (scanPieces (next :: rest)).err }

/-- A `bufio.Scanner` with split function `bufio.ScanLines` over the input. -/
def scanLines (input : Str) : Scanned := scanPieces (Split input newline)

/-! ## Parse -/

/-- The loop `for s.Scan()` of `Parse` over the lines left to scan; `cookies`
is the slice built so far. -/
def parseLoop (softMode : Bool) : List Str → Cookies → Except ParseError Cookies
  | [], cookies => .ok cookies
  | line :: rest, cookies =>
    if HasPrefix line (bytes "#") || line = [] then parseLoop softMode rest cookies
    else
      let parts := Split line tab
      if parts.length < 7 then
        if softMode then parseLoop softMode rest cookies
        else .error (.invalidLine line)
      else
        match ParseInt (bytes "1405544146") with
        | .error err =>
          if softMode then parseLoop softMode rest cookies
          else .error (.invalidExpires err)
        | .ok i =>
          parseLoop softMode rest (cookies ++ [{
            Name := parts.getD 5 [],
            Value := parts.getD 6 [],
            Domain := parts.getD 0 [],
            Path := parts.getD 2 [],
            Expires := Time.Unix i 0,
            Secure := parts.getD 3 [] = bytes "TRUE",
            HttpOnly := parts.getD 1 [] = bytes "TRUE" }])

/-- Go `Parse(r, softMode)` for a reader that delivers `input`: `.error e`
stands for `return nil, e` and `.ok cookies` for `return cookies, nil`. -/
def Parse (softMode : Bool) (input : Str) : Except ParseError Cookies :=
  match parseLoop softMode (scanLines input).tokens [] with
  | .error e => .error e
  | .ok cookies =>
    match (scanLines input).err with
    | some e => .error e
    | none => .ok cookies

/-! ## Queries -/

/-- Go `cs.Filter(domain, path)`. -/
def Cookies.Filter (cs : Cookies) (domain path : Str) : Cookies :=
  cs.foldl (fun cookies c =>
    if c.Domain = domain ∧ HasPrefix path c.Path = true then cookies ++ [c] else cookies) []

/-- The loop of `Valid`: `clock i` is the value `time.Now()` returns when it is
called for the record of index `i`, and `cookies` is the slice built so far. -/
def validLoop (clock : Nat → Time) : Nat → List Cookie → Cookies → Cookies
  | _, [], cookies => cookies
  | i, c :: rest, cookies =>
    if (clock i).Before c.Expires = true then validLoop clock (i + 1) rest (cookies ++ [c])
    else validLoop clock (i + 1) rest cookies

/-- Go `cs.Valid()`, with the readings of the clock as the argument `clock`. -/
def Cookies.Valid (cs : Cookies) (clock : Nat → Time) : Cookies :=
  validLoop clock 0 cs []


/-! ## Vocabulary of the properties -/

/-- A line `Parse` skips as a comment or a blank: empty, or `'#'` first. -/
def isCommentLine (line : Str) : Bool :=
  decide (line = []) || decide (line.head? = some hash)

/-- A line that is not empty, does not start with `'#'` and has fewer than 7
tab-separated fields. -/
def isShortLine (line : Str) : Bool :=
  decide (line ≠ []) && decide (line.head? ≠ some hash) &&
    decide ((Split line tab).length < 7)

/-- A line that is not empty, does not start with `'#'` and has at least 7
tab-separated fields. -/
def isRecordLine (line : Str) : Bool :=
  decide (line ≠ []) && decide (line.head? ≠ some hash) &&
    decide (7 ≤ (Split line tab).length)

/-- Field `k` (counted from 0) of a line split on the tab character. -/
def field (line : Str) (k : Nat) : Str := (Split line tab).getD k []

/-- The record of a line with at least 7 fields, with the expiry the code
gives every record. -/
def recordOf (line : Str) : Cookie :=
  { Domain := field line 0,
    Expires := Time.Unix 1405544146 0,
    HttpOnly := decide (field line 1 = bytes "TRUE"),
    Name := field line 5,
    Path := field line 2,
    Secure := decide (field line 3 = bytes "TRUE"),
    Value := field line 6 }

/-- The lines of a text, piece by piece: every piece between two newlines is a
line, without its final `'\r'`; what follows the last newline is a line only
when it is not empty. -/
def linesOfPieces : List Str → List Str
  | [] => []
  | [last] => if last = [] then [] else [dropCR last]
  | piece :: next :: rest => dropCR piece :: linesOfPieces (next :: rest)

/-- The lines of an input text. -/
def textLines (input : Str) : List Str := linesOfPieces (Split input newline)

/-- Every line of the input, its final `'\r'` included, is shorter than the
buffer bound of the scanner. -/
def linesFit (input : Str) : Prop :=
  ∀ p ∈ Split input newline, p.length < MaxScanTokenSize

/-- A line with at least 7 fields whose field 4 is a base-10 integer of 64
bits. -/
def isWellFormedLine (line : Str) : Bool :=
  isRecordLine line &&
    (match ParseInt (field line 4) with
     | .ok _ => true
     | .error _ => false)

/-- The text with every `"\n"` replaced by `"\r\n"`. -/
def toCRLF : Str → Str
  | [] => []
  | b :: rest =>
    if b = newline then carriageReturn :: newline :: toCRLF rest else b :: toCRLF rest

/-- The pieces of a text after `toCRLF`: every piece that a newline ends gets
a final `'\r'`. -/
def crlfPieces : List Str → List Str
  | [] => []
  | [last] => [last]
  | piece :: next :: rest => (piece ++ [carriageReturn]) :: crlfPieces (next :: rest)

/-- The body of `Parse` over the pieces of the input that are left, with the
slice `cookies` built so far. -/
def parsePieces (softMode : Bool) (pieces : List Str) (cookies : Cookies) :
    Except ParseError Cookies :=
  match parseLoop softMode (scanPieces pieces).tokens cookies with
  | .error e => .error e
  | .ok cs =>
    match (scanPieces pieces).err with
    | some e => .error e
    | none => .ok cs

/-- The instant of a time value in nanoseconds since the Unix epoch. -/
def Time.nanos (t : Time) : Int := t.sec * 1000000000 + (t.nsec : Int)

/-! ## Rendering -/

/-- The verb `%t` of package `fmt`: `true` or `false`. -/
def formatBool (b : Bool) : Str := if b then bytes "true" else bytes "false"

/-- Go `c.String()`. The argument `timeString` is the method `String` of
`time.Time`, which the verb `%s` calls for `c.Expires`; the other strings go
into the result as they are. -/
def Cookie.String (timeString : Time → Str) (c : Cookie) : Str :=
  c.Name ++ bytes "=" ++ c.Value ++ bytes "; Domain=" ++ c.Domain ++ bytes "; Path=" ++
    c.Path ++ bytes "; Expires=" ++ timeString c.Expires ++ bytes "; Secure=" ++
    formatBool c.Secure ++ bytes "; HttpOnly=" ++ formatBool c.HttpOnly

/-- Go `cs.String()`: the loop `s += c.String() + "\n"`. -/
def Cookies.String (timeString : Time → Str) (cs : Cookies) : Str :=
  cs.foldl (fun s c => s ++ (Cookie.String timeString c ++ bytes "\n")) []

/-- Go `c.StringJson()`. The argument `marshal` is `json.Marshal` of the
package `go-json` at a cookie: the encoding, or the message of its error. -/
def Cookie.StringJson (marshal : Cookie → Except Str Str) (c : Cookie) : Str :=
  match marshal c with
  | .error err => bytes "error: " ++ err
  | .ok b => b

/-- The loop of `cs.StringJson()` over the records left: `n` is `len(cs)`, `i`
the index of the next record and `s` the string built so far. -/
def stringJsonLoop (marshal : Cookie → Except Str Str) (n : Nat) :
    Nat → List Cookie → Str → Str
  | _, [], s => s
  | i, c :: rest, s =>
    if i + 1 = n then
      stringJsonLoop marshal n (i + 1) rest (s ++ (Cookie.StringJson marshal c ++ bytes "\n"))
    else
      stringJsonLoop marshal n (i + 1) rest (s ++ (Cookie.StringJson marshal c ++ bytes ",\n"))

/-- Go `cs.StringJson()`. -/
def Cookies.StringJson (marshal : Cookie → Except Str Str) (cs : Cookies) : Str :=
  stringJsonLoop marshal cs.length 0 cs ([] ++ bytes "[\n") ++ bytes "]\n"

/-! ## Reading and writing -/

/-- An error of a reader, of a writer or of the file system, by its message. -/
structure StreamError where
  msg : Str
  deriving DecidableEq, Repr

/-- The errors of the load operations: an error of the stream or of the file
system, or an error of `Parse`. -/
inductive LoadError where
  | stream (e : StreamError)
  | parse (e : ParseError)
  deriving DecidableEq, Repr

/-- An `io.Reader` as `io.ReadAll` sees it: the bytes it delivers until end of
file, or the error at which it fails. -/
abbrev Reader := Except StreamError Str

/-- The file system as `os.OpenFile(file, os.O_RDONLY, 0)` sees it: the error
of opening the file, or the file as a reader. -/
abbrev FileSystem := Str → Except StreamError Reader

/-- An `io.Writer` with its state: `WriteString w s` is the state after the
one call `io.WriteString(w, s)` makes, and the error of the call. -/
structure Writer (σ : Type) where
  WriteString : σ → Str → σ × Option StreamError

/-- A writer that keeps what is written in memory, as `bytes.Buffer` does. -/
def bufferWriter : Writer Str :=
  { WriteString := fun buf s => (buf ++ s, none) }

/-- Go `cs.Write(w)`: the state of the writer after the call, and the error. -/
def Cookies.Write {σ : Type} (timeString : Time → Str) (cs : Cookies) (W : Writer σ) (w : σ) :
    σ × Option StreamError :=
  W.WriteString w (Cookies.String timeString cs)

/-- Go `cs.Read(r, softMode)` on the collection `cs`: the collection after
the call, and the error. The assignment `*cs, err = Parse(...)` stores what
`Parse` returns, nil when it fails. -/
def Cookies.Read (cs : Cookies) (r : Reader) (softMode : Bool) : Cookies × Option LoadError :=
  match r with
  | .error err => (cs, some (.stream err))
  | .ok b =>
    match Parse softMode b with
    | .error err => ([], some (.parse err))
    | .ok cookies => (cookies, none)

/-- Go `cs.ReadFile(file, softMode)`; the error of the deferred `f.Close()` is
dropped. -/
def Cookies.ReadFile (cs : Cookies) (fs : FileSystem) (file : Str) (softMode : Bool) :
    Cookies × Option LoadError :=
  match fs file with
  | .error err => (cs, some (.stream err))
  | .ok f => Cookies.Read cs f softMode

/-- Go `ReadCookies(file, softMode)`: `var cs Cookies`, then
`return cs, cs.ReadFile(file, softMode)`. The variable `cs` is read after the
call of `ReadFile`, as the Go compiler `gc` orders the two; the language
leaves their order open. -/
def ReadCookies (fs : FileSystem) (file : Str) (softMode : Bool) : Cookies × Option LoadError :=
  Cookies.ReadFile [] fs file softMode

/-- What Go `Parse` returns, as a pair: the collection (nil with an error) and
the error. -/
def parseResult (r : Except ParseError Cookies) : Cookies × Option LoadError :=
  match r with
  | .error err => ([], some (.parse err))
  | .ok cookies => (cookies, none)

/-- The lines of the array that `cs.StringJson()` renders, from the renderings
of the records: every rendering on a line of its own, with a comma after every
one but the last. -/
def jsonBody : List Str → Str
  | [] => []
  | [e] => e ++ bytes "\n"
  | e :: next :: rest => e ++ bytes ",\n" ++ jsonBody (next :: rest)

/-- Go `strings.Join(parts, "\t")`. -/
def joinTab : List Str → Str
  | [] => []
  | [p] => p
  | p :: q :: rest => p ++ tab :: joinTab (q :: rest)

/-- The line cut after its first seven tab-separated fields. -/
def firstSeven (line : Str) : Str := joinTab ((Split line tab).take 7)

/-! ## The loop of Parse, line by line -/

theorem bytes_hash : bytes "#" = [hash] := by decide

theorem parseInt_const : ParseInt (bytes "1405544146") = .ok 1405544146 := by rfl

theorem hasPrefix_hash (line : Str) :
    HasPrefix line (bytes "#") = decide (line.head? = some hash) := by
  rw [bytes_hash]
  cases line with
  | nil => simp [HasPrefix]
  | cons b rest =>
    by_cases hb : b = hash
    · simp [HasPrefix, List.isPrefixOf, hb]
    · have hb2 : ¬ hash = b := fun h => hb h.symm
      simp [HasPrefix, List.isPrefixOf, hb, hb2]

theorem line_cases (line : Str) :
    isCommentLine line = true ∨ isShortLine line = true ∨ isRecordLine line = true := by
  unfold isCommentLine isShortLine isRecordLine
  by_cases h1 : line = [] <;> by_cases h2 : line.head? = some hash <;>
    by_cases h3 : (Split line tab).length < 7 <;> simp [h1, h2, h3]
  all_goals omega

theorem parseLoop_cons_comment (m : Bool) (line : Str) (rest : List Str) (acc : Cookies)
    (h : isCommentLine line = true) :
    parseLoop m (line :: rest) acc = parseLoop m rest acc := by
  unfold isCommentLine at h
  rw [parseLoop, hasPrefix_hash]
  simp only [Bool.or_comm] at h ⊢
  simp [h]

theorem parseLoop_cons_record (m : Bool) (line : Str) (rest : List Str) (acc : Cookies)
    (h : isRecordLine line = true) :
    parseLoop m (line :: rest) acc = parseLoop m rest (acc ++ [recordOf line]) := by
  unfold isRecordLine at h
  simp only [Bool.and_eq_true, decide_eq_true_eq] at h
  obtain ⟨⟨h1, h2⟩, h3⟩ := h
  rw [parseLoop, hasPrefix_hash]
  simp [h1, h2, Nat.not_lt.mpr h3, parseInt_const, recordOf, field]

theorem parseLoop_cons_short (m : Bool) (line : Str) (rest : List Str) (acc : Cookies)
    (h : isShortLine line = true) :
    parseLoop m (line :: rest) acc =
      if m then parseLoop m rest acc else .error (.invalidLine line) := by
  unfold isShortLine at h
  simp only [Bool.and_eq_true, decide_eq_true_eq] at h
  obtain ⟨⟨h1, h2⟩, h3⟩ := h
  rw [parseLoop, hasPrefix_hash]
  simp [h1, h2, h3]

/-! ## Splitting -/

theorem consHead_append (b : UInt8) (ps qs : List Str) (h : ps ≠ []) :
    consHead b (ps ++ qs) = consHead b ps ++ qs := by
  cases ps with
  | nil => exact absurd rfl h
  | cons p ps => rfl

theorem split_ne_nil (s : Str) (sep : UInt8) : Split s sep ≠ [] := by
  cases s with
  | nil => simp [Split]
  | cons b rest =>
    rw [Split]
    split
    · simp
    · cases Split rest sep <;> simp [consHead]

theorem split_no_sep (sep : UInt8) (s : Str) (h : sep ∉ s) : Split s sep = [s] := by
  induction s with
  | nil => rfl
  | cons b rest ih =>
    have hb : ¬ b = sep := fun e => h (by simp [e])
    have hr : sep ∉ rest := fun e => h (List.mem_cons_of_mem _ e)
    rw [Split, if_neg hb, ih hr]
    rfl

theorem split_append_sep (sep : UInt8) (a b : Str) :
    Split (a ++ sep :: b) sep = Split a sep ++ Split b sep := by
  induction a with
  | nil => simp [Split]
  | cons x a ih =>
    by_cases hx : x = sep
    · simp [Split, hx, ih]
    · rw [List.cons_append, Split, if_neg hx, ih, Split, if_neg hx]
      exact consHead_append x _ _ (split_ne_nil a sep)

theorem split_length (sep : UInt8) (s : Str) :
    (Split s sep).length = s.count sep + 1 := by
  induction s with
  | nil => rfl
  | cons x a ih =>
    by_cases hx : x = sep
    · simp [Split, hx, ih]
    · have hl : ∀ ps : List Str, ps ≠ [] → (consHead x ps).length = ps.length := by
        intro ps hps
        cases ps with
        | nil => exact absurd rfl hps
        | cons p ps => rfl
      have hx2 : ¬ sep = x := fun e => hx e.symm
      rw [Split, if_neg hx, hl _ (split_ne_nil a sep), ih, List.count_cons_of_ne hx2]

theorem mem_of_mem_split (sep : UInt8) (s p : Str) (hp : p ∈ Split s sep) :
    ∀ b ∈ p, b ∈ s := by
  induction s generalizing p with
  | nil =>
    simp [Split] at hp
    simp [hp]
  | cons x a ih =>
    by_cases hx : x = sep
    · simp only [Split, hx, if_true, List.mem_cons] at hp
      rcases hp with hp | hp
      · simp [hp]
      · intro b hb
        exact List.mem_cons_of_mem _ (ih p hp b hb)
    · rw [Split, if_neg hx] at hp
      have hne := split_ne_nil a sep
      cases hs : Split a sep with
      | nil => exact absurd hs hne
      | cons q qs =>
        rw [hs] at hp ih
        simp only [consHead, List.mem_cons] at hp
        intro b hb
        rcases hp with hp | hp
        · subst hp
          rcases List.mem_cons.mp hb with hb | hb
          · simp [hb]
          · exact List.mem_cons_of_mem _ (ih q (by simp) b hb)
        · exact List.mem_cons_of_mem _ (ih p (by simp [hp]) b hb)

/-! ## The scanner -/

theorem scanPieces_cons (p : Str) (rest : List Str) (h : rest ≠ []) :
    scanPieces (p :: rest) =
      if MaxScanTokenSize ≤ p.length then { tokens := [], err := some .ErrTooLong }
      else { tokens := dropCR p :: (scanPieces rest).tokens, err := (scanPieces rest).err } := by
  cases rest with
  | nil => exact absurd rfl h
  | cons q qs => rw [scanPieces]

theorem scanPieces_err_none (ps : List Str) (h : ∀ p ∈ ps, p.length < MaxScanTokenSize) :
    (scanPieces ps).err = none := by
  induction ps with
  | nil => rfl
  | cons p rest ih =>
    have hp : ¬ MaxScanTokenSize ≤ p.length := Nat.not_le.mpr (h p (by simp))
    cases rest with
    | nil =>
      rw [scanPieces, if_neg hp]
      split <;> rfl
    | cons q qs =>
      rw [scanPieces, if_neg hp]
      exact ih (fun r hr => h r (List.mem_cons_of_mem _ hr))

/-- When every line of the input is shorter than the buffer bound, the scanner
ends without an error. -/
theorem scanLines_err_none (input : Str)
    (h : ∀ p ∈ Split input newline, p.length < MaxScanTokenSize) :
    (scanLines input).err = none :=
  scanPieces_err_none _ h

theorem scanPieces_too_long (p : Str) (rest : List Str) (h : MaxScanTokenSize ≤ p.length) :
    scanPieces (p :: rest) = { tokens := [], err := some .ErrTooLong } := by
  cases rest with
  | nil => rw [scanPieces, if_pos h]
  | cons q qs => rw [scanPieces, if_pos h]

theorem scanPieces_of_fit (ps : List Str) (h : ∀ p ∈ ps, p.length < MaxScanTokenSize) :
    scanPieces ps = { tokens := linesOfPieces ps, err := none } := by
  induction ps with
  | nil => rfl
  | cons p rest ih =>
    have hp : ¬ MaxScanTokenSize ≤ p.length := Nat.not_le.mpr (h p (by simp))
    cases rest with
    | nil =>
      rw [scanPieces, if_neg hp, linesOfPieces]
      split <;> rfl
    | cons q qs =>
      rw [scanPieces, if_neg hp, ih (fun r hr => h r (List.mem_cons_of_mem _ hr)), linesOfPieces]

theorem scanPieces_tokens_of_err_none (ps : List Str) (h : (scanPieces ps).err = none) :
    (scanPieces ps).tokens = linesOfPieces ps := by
  induction ps with
  | nil => rfl
  | cons p rest ih =>
    by_cases hp : MaxScanTokenSize ≤ p.length
    · rw [scanPieces_too_long p rest hp] at h
      simp at h
    · cases rest with
      | nil =>
        rw [scanPieces, if_neg hp, linesOfPieces]
        split <;> rfl
      | cons q qs =>
        rw [scanPieces, if_neg hp] at h ⊢
        rw [linesOfPieces]
        simp only at h ⊢
        rw [ih h]

/-- The scanner delivers the lines of the text when every line fits its
buffer. -/
theorem scanLines_of_fit (input : Str) (h : linesFit input) :
    scanLines input = { tokens := textLines input, err := none } :=
  scanPieces_of_fit _ h

theorem parse_too_long (m : Bool) (line : Str) (h1 : newline ∉ line)
    (h2 : MaxScanTokenSize ≤ line.length) : Parse m line = .error .ErrTooLong := by
  unfold Parse scanLines
  rw [split_no_sep newline line h1, scanPieces_too_long line [] h2]
  simp [parseLoop]

/-! ## The loop over all lines -/

theorem isRecordLine_of_comment (line : Str) (h : isCommentLine line = true) :
    isRecordLine line = false := by
  unfold isCommentLine at h
  unfold isRecordLine
  by_cases h1 : line = [] <;> by_cases h2 : line.head? = some hash <;> simp_all

theorem isRecordLine_of_short (line : Str) (h : isShortLine line = true) :
    isRecordLine line = false := by
  unfold isShortLine at h
  unfold isRecordLine
  simp only [Bool.and_eq_true, decide_eq_true_eq] at h
  simp [h.1.1, h.1.2, h.2]

theorem isShortLine_of_comment (line : Str) (h : isCommentLine line = true) :
    isShortLine line = false := by
  unfold isCommentLine at h
  unfold isShortLine
  by_cases h1 : line = [] <;> by_cases h2 : line.head? = some hash <;> simp_all

theorem isShortLine_of_record (line : Str) (h : isRecordLine line = true) :
    isShortLine line = false := by
  unfold isRecordLine at h
  unfold isShortLine
  simp only [Bool.and_eq_true, decide_eq_true_eq] at h
  simp [h.1.1, h.1.2, Nat.not_lt.mpr h.2]

/-- The records of the lines that have at least 7 fields, in order. -/
theorem parseLoop_ok_eq (m : Bool) (lines : List Str) (acc cs : Cookies)
    (h : parseLoop m lines acc = .ok cs) :
    cs = acc ++ (lines.filter isRecordLine).map recordOf := by
  induction lines generalizing acc with
  | nil =>
    simp only [parseLoop, Except.ok.injEq] at h
    simp [h]
  | cons line rest ih =>
    rcases line_cases line with hc | hc | hc
    · rw [parseLoop_cons_comment m line rest acc hc] at h
      simp [List.filter_cons, isRecordLine_of_comment line hc, ih acc h]
    · rw [parseLoop_cons_short m line rest acc hc] at h
      cases m with
      | false => simp at h
      | true =>
        simp only [if_true] at h
        simp [List.filter_cons, isRecordLine_of_short line hc, ih acc h]
    · rw [parseLoop_cons_record m line rest acc hc] at h
      simp [List.filter_cons, hc, ih _ h]

theorem parseLoop_soft (lines : List Str) (acc : Cookies) :
    parseLoop true lines acc = .ok (acc ++ (lines.filter isRecordLine).map recordOf) := by
  induction lines generalizing acc with
  | nil => simp [parseLoop]
  | cons line rest ih =>
    rcases line_cases line with hc | hc | hc
    · rw [parseLoop_cons_comment true line rest acc hc, ih]
      simp [List.filter_cons, isRecordLine_of_comment line hc]
    · rw [parseLoop_cons_short true line rest acc hc, if_pos rfl, ih]
      simp [List.filter_cons, isRecordLine_of_short line hc]
    · rw [parseLoop_cons_record true line rest acc hc, ih]
      simp [List.filter_cons, hc]

theorem parseLoop_no_short (m : Bool) (lines : List Str) (acc : Cookies)
    (h : ∀ l ∈ lines, isShortLine l = false) :
    parseLoop m lines acc = .ok (acc ++ (lines.filter isRecordLine).map recordOf) := by
  induction lines generalizing acc with
  | nil => simp [parseLoop]
  | cons line rest ih =>
    have hr : ∀ l ∈ rest, isShortLine l = false := fun l hl => h l (List.mem_cons_of_mem _ hl)
    rcases line_cases line with hc | hc | hc
    · rw [parseLoop_cons_comment m line rest acc hc, ih acc hr]
      simp [List.filter_cons, isRecordLine_of_comment line hc]
    · rw [h line (by simp)] at hc
      exact absurd hc (by simp)
    · rw [parseLoop_cons_record m line rest acc hc, ih _ hr]
      simp [List.filter_cons, hc]

theorem parseLoop_first_short (pre : List Str) (bad : Str) (post : List Str) (acc : Cookies)
    (h : ∀ l ∈ pre, isShortLine l = false) (hb : isShortLine bad = true) :
    parseLoop false (pre ++ bad :: post) acc = .error (.invalidLine bad) := by
  induction pre generalizing acc with
  | nil => simp [parseLoop_cons_short false bad post acc hb]
  | cons line rest ih =>
    have hr : ∀ l ∈ rest, isShortLine l = false := fun l hl => h l (List.mem_cons_of_mem _ hl)
    rcases line_cases line with hc | hc | hc
    · rw [List.cons_append, parseLoop_cons_comment false line _ acc hc, ih acc hr]
    · rw [h line (by simp)] at hc
      exact absurd hc (by simp)
    · rw [List.cons_append, parseLoop_cons_record false line _ acc hc, ih _ hr]

/-- A successful `Parse` returns the records of the lines with at least 7
fields, in the order of the lines. -/
theorem parse_ok_eq (m : Bool) (input : Str) (cs : Cookies) (h : Parse m input = .ok cs) :
    cs = ((textLines input).filter isRecordLine).map recordOf := by
  unfold Parse at h
  split at h
  · simp at h
  · rename_i cookies hloop
    split at h
    · simp at h
    · rename_i herr
      simp only [Except.ok.injEq] at h
      subst h
      have ht : (scanLines input).tokens = textLines input :=
        scanPieces_tokens_of_err_none _ herr
      rw [ht] at hloop
      simpa using parseLoop_ok_eq m _ [] _ hloop

/-- When every line fits the buffer and no line is short, `Parse` succeeds in
either mode. -/
theorem parse_of_fit_no_short (m : Bool) (input : Str) (hfit : linesFit input)
    (h : ∀ l ∈ textLines input, isShortLine l = false) :
    Parse m input = .ok (((textLines input).filter isRecordLine).map recordOf) := by
  unfold Parse
  rw [scanLines_of_fit input hfit]
  simp only
  rw [parseLoop_no_short m _ [] h]
  simp

/-- In lenient mode `Parse` succeeds whenever every line fits the buffer. -/
theorem parse_soft_of_fit (input : Str) (hfit : linesFit input) :
    Parse true input = .ok (((textLines input).filter isRecordLine).map recordOf) := by
  unfold Parse
  rw [scanLines_of_fit input hfit]
  simp only
  rw [parseLoop_soft]
  simp

/-! ## C1 -/

/-- C1: when `Parse` succeeds, in either mode, the record it returns for the
`i`-th line that is not empty, does not start with `'#'` and has at least 7
tab-separated fields has domain = field 0, path = field 2, name = field 5,
value = field 6, `Secure` true exactly when field 3 is the string `TRUE`, and
`HttpOnly` (the include-subdomains flag) true exactly when field 1 is the
string `TRUE`. -/
theorem parse_field_mapping (softMode : Bool) (input : Str) (cs : Cookies)
    (h : Parse softMode input = .ok cs) (i : Nat) (line : Str)
    (hline : ((textLines input).filter isRecordLine)[i]? = some line) :
    ∃ c, cs[i]? = some c ∧ c.Domain = field line 0 ∧ c.Path = field line 2 ∧
      c.Name = field line 5 ∧ c.Value = field line 6 ∧
      (c.Secure = true ↔ field line 3 = bytes "TRUE") ∧
      (c.HttpOnly = true ↔ field line 1 = bytes "TRUE") := by
  refine ⟨recordOf line, ?_, rfl, rfl, rfl, rfl, ?_, ?_⟩
  · rw [parse_ok_eq softMode input cs h, List.getElem?_map, hline]
    rfl
  · simp [recordOf]
  · simp [recordOf]

/-- C1 at a file of a comment and two lines, the second with `true` in lower
case in field 1 and `1` in field 3: both flags of its record are false. -/
theorem parse_field_mapping_witness :
    ∃ c, ([recordOf (bytes "a.org\tTRUE\t/\tTRUE\t0\tid\t7"),
           recordOf (bytes "example.com\ttrue\t/api\t1\t12\tname\tvalue")] : Cookies)[1]? = some c ∧
      c.Domain = field (bytes "example.com\ttrue\t/api\t1\t12\tname\tvalue") 0 ∧
      c.Path = field (bytes "example.com\ttrue\t/api\t1\t12\tname\tvalue") 2 ∧
      c.Name = field (bytes "example.com\ttrue\t/api\t1\t12\tname\tvalue") 5 ∧
      c.Value = field (bytes "example.com\ttrue\t/api\t1\t12\tname\tvalue") 6 ∧
      (c.Secure = true ↔
        field (bytes "example.com\ttrue\t/api\t1\t12\tname\tvalue") 3 = bytes "TRUE") ∧
      (c.HttpOnly = true ↔
        field (bytes "example.com\ttrue\t/api\t1\t12\tname\tvalue") 1 = bytes "TRUE") :=
  parse_field_mapping false
    (bytes "# Netscape HTTP Cookie File\na.org\tTRUE\t/\tTRUE\t0\tid\t7\nexample.com\ttrue\t/api\t1\t12\tname\tvalue\n")
    _ (by rfl) 1 _ (by rfl)

/-! ## C2 -/

/-- C2: evaluation of `Parse` at two lines whose expiry fields are the
integers `0` and `-1`: both records carry the instant 1405544146 s after the
epoch, neither the instant 0 s nor -1 s of its own field 4. -/
theorem parse_expires_not_from_field :
    ParseInt (bytes "0") = .ok 0 ∧ ParseInt (bytes "-1") = .ok (-1) ∧
    Parse false (bytes "a.org\tTRUE\t/\tTRUE\t0\tid\t7\nb.org\tTRUE\t/\tTRUE\t-1\tid\t7\n") =
      .ok [{ Domain := bytes "a.org", Expires := Time.Unix 1405544146 0, HttpOnly := true,
             Name := bytes "id", Path := bytes "/", Secure := true, Value := bytes "7" },
           { Domain := bytes "b.org", Expires := Time.Unix 1405544146 0, HttpOnly := true,
             Name := bytes "id", Path := bytes "/", Secure := true, Value := bytes "7" }] ∧
    Time.Unix 1405544146 0 ≠ Time.Unix 0 0 ∧ Time.Unix 1405544146 0 ≠ Time.Unix (-1) 0 := by
  refine ⟨by rfl, by rfl, by rfl, by decide, by decide⟩

/-! ## C3 -/

theorem scanPieces_append (pre rest : List Str)
    (hfit : ∀ p ∈ pre, p.length < MaxScanTokenSize) (hrest : rest ≠ []) :
    scanPieces (pre ++ rest) =
      { tokens := pre.map dropCR ++ (scanPieces rest).tokens, err := (scanPieces rest).err } := by
  induction pre with
  | nil => rfl
  | cons p pre ih =>
    have hp : ¬ MaxScanTokenSize ≤ p.length := Nat.not_le.mpr (hfit p (by simp))
    have hne : pre ++ rest ≠ [] := by simp [hrest]
    rw [List.cons_append, scanPieces_cons p _ hne, if_neg hp,
      ih (fun r hr => hfit r (List.mem_cons_of_mem _ hr))]
    rfl

theorem dropCR_nil : dropCR [] = [] := rfl

theorem scanPieces_head_token (p : Str) (rest : List Str)
    (hfit : p.length < MaxScanTokenSize) (hne : dropCR p ≠ []) :
    ∃ more, (scanPieces (p :: rest)).tokens = dropCR p :: more := by
  have hp : ¬ MaxScanTokenSize ≤ p.length := Nat.not_le.mpr hfit
  have hp2 : p ≠ [] := fun e => hne (by rw [e, dropCR_nil])
  cases rest with
  | nil =>
    rw [scanPieces, if_neg hp, if_neg hp2]
    exact ⟨[], rfl⟩
  | cons q qs =>
    rw [scanPieces, if_neg hp]
    exact ⟨_, rfl⟩

theorem isShortLine_ne_nil (line : Str) (h : isShortLine line = true) : line ≠ [] := by
  unfold isShortLine at h
  simp only [Bool.and_eq_true, decide_eq_true_eq] at h
  exact h.1.1

theorem isShortLine_repeat (n : Nat) (a : UInt8) (h1 : a ≠ hash) (h2 : tab ≠ a) :
    isShortLine (a :: List.replicate n a) = true := by
  have hsplit : Split (a :: List.replicate n a) tab = [a :: List.replicate n a] := by
    apply split_no_sep
    intro hm
    rcases List.mem_cons.mp hm with e | e
    · exact h2 e
    · exact h2 (List.eq_of_mem_replicate e)
  unfold isShortLine
  rw [hsplit]
  simp [h1]

theorem newline_not_mem_repeat (n : Nat) (a : UInt8) (h : newline ≠ a) :
    newline ∉ a :: List.replicate n a := by
  intro hm
  rcases List.mem_cons.mp hm with e | e
  · exact h e
  · exact h (List.eq_of_mem_replicate e)

theorem repeat_too_long (n : Nat) (a : UInt8) (h : MaxScanTokenSize ≤ n + 1) :
    MaxScanTokenSize ≤ (a :: List.replicate n a).length := by
  rw [List.length_cons, List.length_replicate]
  exact h

/-- C3 fails as stated: the input of 65536 bytes `a` is one line that is not
empty, does not start with `'#'` and has a single field, yet strict `Parse`
returns the scanner error `ErrTooLong`, not an invalid-line error. -/
theorem strict_short_line_counterexample :
    isShortLine (97 :: List.replicate 65535 97) = true ∧
    newline ∉ (97 :: List.replicate 65535 97 : Str) ∧
    Parse false (97 :: List.replicate 65535 97) = .error .ErrTooLong ∧
    Parse false (97 :: List.replicate 65535 97) ≠
      .error (.invalidLine (97 :: List.replicate 65535 97)) := by
  have hn : newline ∉ (97 :: List.replicate 65535 97 : Str) :=
    newline_not_mem_repeat 65535 97 (by decide)
  have hp : Parse false (97 :: List.replicate 65535 97) = .error .ErrTooLong :=
    parse_too_long false _ hn (repeat_too_long 65535 97 (by decide))
  refine ⟨isShortLine_repeat 65535 97 (by decide) (by decide), hn, hp, ?_⟩
  rw [hp]
  intro h
  injection h with h
  exact ParseError.noConfusion h

/-! ## C4 -/

theorem isCommentLine_of_record (line : Str) (h : isRecordLine line = true) :
    isCommentLine line = false := by
  unfold isRecordLine at h
  unfold isCommentLine
  simp only [Bool.and_eq_true, decide_eq_true_eq] at h
  simp [h.1.1, h.1.2]

theorem isCommentLine_of_short (line : Str) (h : isShortLine line = true) :
    isCommentLine line = false := by
  unfold isShortLine at h
  unfold isCommentLine
  simp only [Bool.and_eq_true, decide_eq_true_eq] at h
  simp [h.1.1, h.1.2]

theorem isWellFormedLine_le (line : Str) (h : isWellFormedLine line = true) :
    isRecordLine line = true := by
  unfold isWellFormedLine at h
  simp only [Bool.and_eq_true] at h
  exact h.1

/-- C4 fails as stated: the input of 65536 bytes `a` has a single line, which
has fewer than 7 fields, yet lenient `Parse` returns an error, the scanner
error `ErrTooLong`. -/
theorem lenient_short_lines_counterexample :
    isShortLine (97 :: List.replicate 65535 97) = true ∧
    newline ∉ (97 :: List.replicate 65535 97 : Str) ∧
    Parse true (97 :: List.replicate 65535 97) = .error .ErrTooLong :=
  ⟨isShortLine_repeat 65535 97 (by decide) (by decide),
   newline_not_mem_repeat 65535 97 (by decide),
   parse_too_long true _ (newline_not_mem_repeat 65535 97 (by decide))
     (repeat_too_long 65535 97 (by decide))⟩

/-- C4, amended: in lenient mode, for every input whose lines, each counted
with the final `'\r'` that the scanner strips from it, are all shorter than
65536 bytes and in which each line that is not empty and does not start with
`'#'` either has fewer than 7 tab-separated fields or is well-formed (at least
7 fields, field 4 an integer), `Parse` returns no error and the collection of
the records of the well-formed lines, one for each, in the order of the lines;
a short line contributes nothing. -/
theorem lenient_drops_short_lines (input : Str) (hfit : linesFit input)
    (hlines : ∀ l ∈ textLines input, isCommentLine l = false →
      isShortLine l = true ∨ isWellFormedLine l = true) :
    Parse true input = .ok (((textLines input).filter isWellFormedLine).map recordOf) := by
  rw [parse_soft_of_fit input hfit]
  have hcongr : (textLines input).filter isWellFormedLine =
      (textLines input).filter isRecordLine := by
    apply List.filter_congr
    intro l hl
    cases hr : isRecordLine l with
    | false =>
      cases hw : isWellFormedLine l with
      | false => rfl
      | true => rw [isWellFormedLine_le l hw] at hr; exact absurd hr (by simp)
    | true =>
      rcases hlines l hl (isCommentLine_of_record l hr) with hs | hw
      · rw [isShortLine_of_record l hr] at hs
        exact absurd hs (by simp)
      · exact hw
  rw [hcongr]

/-- C4 amended, at a file of a well-formed line, a line of 3 fields and a
second well-formed line: two records, in the order of the lines. -/
theorem lenient_drops_short_lines_witness :
    Parse true (bytes "a.org\tTRUE\t/\tTRUE\t0\tid\t7\nx\ty\tz\nb.org\tFALSE\t/b\tFALSE\t-5\tk\tv") =
      .ok [recordOf (bytes "a.org\tTRUE\t/\tTRUE\t0\tid\t7"),
           recordOf (bytes "b.org\tFALSE\t/b\tFALSE\t-5\tk\tv")] :=
  lenient_drops_short_lines
    (bytes "a.org\tTRUE\t/\tTRUE\t0\tid\t7\nx\ty\tz\nb.org\tFALSE\t/b\tFALSE\t-5\tk\tv")
    (by unfold linesFit; decide) (by decide)

/-! ## C6 -/

/-- C6: evaluation of `Parse` at a line of 7 fields whose field 4 is `abc`, no
integer: strict `Parse` succeeds and both modes return a record for the
line. -/
theorem parse_accepts_bad_expires :
    ParseInt (bytes "abc") = .error .ErrSyntax ∧
    Parse false (bytes "a.org\tTRUE\t/\tTRUE\tabc\tid\t7\n") =
      .ok [{ Domain := bytes "a.org", Expires := Time.Unix 1405544146 0, HttpOnly := true,
             Name := bytes "id", Path := bytes "/", Secure := true, Value := bytes "7" }] ∧
    Parse true (bytes "a.org\tTRUE\t/\tTRUE\tabc\tid\t7\n") =
      .ok [{ Domain := bytes "a.org", Expires := Time.Unix 1405544146 0, HttpOnly := true,
             Name := bytes "id", Path := bytes "/", Secure := true, Value := bytes "7" }] := by
  refine ⟨by rfl, by rfl, by rfl⟩

/-! ## Parse, piece by piece -/

theorem parse_eq_parsePieces (m : Bool) (input : Str) :
    Parse m input = parsePieces m (Split input newline) [] := rfl

theorem parsePieces_too_long (m : Bool) (p : Str) (rest : List Str) (acc : Cookies)
    (h : MaxScanTokenSize ≤ p.length) :
    parsePieces m (p :: rest) acc = .error .ErrTooLong := by
  unfold parsePieces
  rw [scanPieces_too_long p rest h]
  simp [parseLoop]

/-- One step of `Parse`: the line of the first piece is skipped, rejected or
recorded, then the other pieces follow. -/
theorem parsePieces_cons (m : Bool) (p : Str) (rest : List Str) (acc : Cookies)
    (h : rest ≠ []) (hfit : p.length < MaxScanTokenSize) :
    parsePieces m (p :: rest) acc =
      if isCommentLine (dropCR p) = true then parsePieces m rest acc
      else if isShortLine (dropCR p) = true then
        (if m then parsePieces m rest acc else .error (.invalidLine (dropCR p)))
      else parsePieces m rest (acc ++ [recordOf (dropCR p)]) := by
  have hp : ¬ MaxScanTokenSize ≤ p.length := Nat.not_le.mpr hfit
  unfold parsePieces
  rw [scanPieces_cons p rest h, if_neg hp]
  simp only
  rcases line_cases (dropCR p) with hc | hc | hc
  · rw [parseLoop_cons_comment m _ _ acc hc, if_pos hc]
  · rw [parseLoop_cons_short m _ _ acc hc]
    cases m <;> simp [isCommentLine_of_short _ hc, hc]
  · rw [parseLoop_cons_record m _ _ acc hc]
    simp [isCommentLine_of_record _ hc, isShortLine_of_record _ hc]

/-- The last step of `Parse`: what follows the last newline. -/
theorem parsePieces_single (m : Bool) (p : Str) (acc : Cookies)
    (hfit : p.length < MaxScanTokenSize) :
    parsePieces m [p] acc =
      if isCommentLine (dropCR p) = true then .ok acc
      else if isShortLine (dropCR p) = true then
        (if m then .ok acc else .error (.invalidLine (dropCR p)))
      else .ok (acc ++ [recordOf (dropCR p)]) := by
  have hp : ¬ MaxScanTokenSize ≤ p.length := Nat.not_le.mpr hfit
  unfold parsePieces
  rw [scanPieces, if_neg hp]
  by_cases he : p = []
  · subst he
    simp [parseLoop, dropCR_nil, isCommentLine]
  · rw [if_neg he]
    simp only
    rcases line_cases (dropCR p) with hc | hc | hc
    · rw [parseLoop_cons_comment m _ _ acc hc, if_pos hc]
      simp [parseLoop]
    · rw [parseLoop_cons_short m _ _ acc hc]
      cases m <;> simp [isCommentLine_of_short _ hc, hc, parseLoop]
    · rw [parseLoop_cons_record m _ _ acc hc]
      simp [isCommentLine_of_record _ hc, isShortLine_of_record _ hc, parseLoop]

theorem parsePieces_cons_congr (m : Bool) (p : Str) (r1 r2 : List Str)
    (h1 : r1 ≠ []) (h2 : r2 ≠ [])
    (h : ∀ acc, parsePieces m r1 acc = parsePieces m r2 acc) (acc : Cookies) :
    parsePieces m (p :: r1) acc = parsePieces m (p :: r2) acc := by
  by_cases hp : MaxScanTokenSize ≤ p.length
  · rw [parsePieces_too_long m p r1 acc hp, parsePieces_too_long m p r2 acc hp]
  · rw [parsePieces_cons m p r1 acc h1 (Nat.not_le.mp hp),
      parsePieces_cons m p r2 acc h2 (Nat.not_le.mp hp), h, h]

theorem parsePieces_append_congr (m : Bool) (ps r1 r2 : List Str)
    (h1 : r1 ≠ []) (h2 : r2 ≠ [])
    (h : ∀ acc, parsePieces m r1 acc = parsePieces m r2 acc) (acc : Cookies) :
    parsePieces m (ps ++ r1) acc = parsePieces m (ps ++ r2) acc := by
  induction ps generalizing acc with
  | nil => exact h acc
  | cons p ps ih =>
    exact parsePieces_cons_congr m p _ _ (by simp [h1]) (by simp [h2]) ih acc

/-- A comment line between two pieces of the input changes nothing. -/
theorem parsePieces_insert_comment (m : Bool) (ps : List Str) (c : Str) (rest : List Str)
    (hrest : rest ≠ []) (hfit : c.length < MaxScanTokenSize)
    (hc : isCommentLine (dropCR c) = true) (acc : Cookies) :
    parsePieces m (ps ++ c :: rest) acc = parsePieces m (ps ++ rest) acc := by
  apply parsePieces_append_congr m ps _ _ (by simp) hrest
  intro acc
  rw [parsePieces_cons m c rest acc hrest hfit, if_pos hc]

/-- A comment line after the last piece of the input changes nothing. -/
theorem parsePieces_append_comment (m : Bool) (ps : List Str) (last c : Str)
    (hfit : c.length < MaxScanTokenSize) (hc : isCommentLine (dropCR c) = true)
    (acc : Cookies) :
    parsePieces m (ps ++ [last, c]) acc = parsePieces m (ps ++ [last]) acc := by
  apply parsePieces_append_congr m ps _ _ (by simp) (by simp)
  intro acc
  have hsingle : ∀ acc, parsePieces m [c] acc = .ok acc := by
    intro acc
    rw [parsePieces_single m c acc hfit, if_pos hc]
  by_cases hp : MaxScanTokenSize ≤ last.length
  · rw [parsePieces_too_long m last _ acc hp, parsePieces_too_long m last _ acc hp]
  · rw [parsePieces_cons m last [c] acc (by simp) (Nat.not_le.mp hp),
      parsePieces_single m last acc (Nat.not_le.mp hp), hsingle, hsingle]

/-- A comment line put at the start of a line of the input changes nothing. -/
theorem parse_insert_comment_line (m : Bool) (pre c post : Str)
    (hpre : pre = [] ∨ pre.getLast? = some newline) (hnl : newline ∉ c)
    (hfit : c.length < MaxScanTokenSize) (hc : isCommentLine (dropCR c) = true) :
    Parse m (pre ++ c ++ newline :: post) = Parse m (pre ++ post) := by
  rcases hpre with hpre | hpre
  · subst hpre
    rw [List.nil_append, List.nil_append, parse_eq_parsePieces, parse_eq_parsePieces,
      split_append_sep, split_no_sep newline c hnl]
    exact parsePieces_insert_comment m [] c _ (split_ne_nil post newline) hfit hc []
  · obtain ⟨front, rfl⟩ := List.getLast?_eq_some_iff.mp hpre
    have e1 : front ++ [newline] ++ c ++ newline :: post =
        front ++ newline :: (c ++ newline :: post) := by simp
    have e2 : front ++ [newline] ++ post = front ++ newline :: post := by simp
    rw [e1, e2, parse_eq_parsePieces, parse_eq_parsePieces, split_append_sep,
      split_append_sep, split_append_sep, split_no_sep newline c hnl]
    exact parsePieces_insert_comment m _ c _ (split_ne_nil post newline) hfit hc []

/-! ## C5 -/

/-- C5 fails as stated: the input `#` followed by 65535 bytes `a` is one line
that begins with `'#'`, yet `Parse` returns the scanner error `ErrTooLong` in
both modes instead of an empty collection. -/
theorem comment_lines_counterexample :
    (hash :: List.replicate 65535 97 : Str).head? = some hash ∧
    newline ∉ (hash :: List.replicate 65535 97 : Str) ∧
    Parse false (hash :: List.replicate 65535 97) = .error .ErrTooLong ∧
    Parse true (hash :: List.replicate 65535 97) = .error .ErrTooLong := by
  have hn : newline ∉ (hash :: List.replicate 65535 97 : Str) := by
    intro hm
    rcases List.mem_cons.mp hm with e | e
    · exact absurd e (by decide)
    · exact absurd (List.eq_of_mem_replicate e) (by decide)
  have hlen : MaxScanTokenSize ≤ (hash :: List.replicate 65535 97 : Str).length := by
    rw [List.length_cons, List.length_replicate]
    decide
  exact ⟨rfl, hn, parse_too_long false _ hn hlen, parse_too_long true _ hn hlen⟩

/-- C5, amended: in either mode, with every line counted with the final
`'\r'` that the scanner strips from it, (1) an input whose lines are all
shorter than 65536 bytes and all empty or beginning with `'#'` parses to the
empty collection without error; (2) a line `c` shorter than 65536 bytes that
is empty or begins with `'#'`, whatever its fields, put between a part `pre`
of the input that ends a line and the rest `post`, leaves the result of
`Parse` as it is without the line; (3) so does such a line put after the end
of the input. -/
theorem comment_lines_are_skipped (m : Bool) :
    (∀ input : Str, linesFit input → (∀ l ∈ textLines input, isCommentLine l = true) →
      Parse m input = .ok []) ∧
    (∀ pre c post : Str, (pre = [] ∨ pre.getLast? = some newline) → newline ∉ c →
      c.length < MaxScanTokenSize → isCommentLine (dropCR c) = true →
      Parse m (pre ++ c ++ newline :: post) = Parse m (pre ++ post)) ∧
    (∀ pre c : Str, newline ∉ c → c.length < MaxScanTokenSize →
      isCommentLine (dropCR c) = true →
      Parse m (pre ++ newline :: c) = Parse m pre) := by
  refine ⟨?_, ?_, ?_⟩
  · intro input hfit hall
    have hns : ∀ l ∈ textLines input, isShortLine l = false :=
      fun l hl => isShortLine_of_comment l (hall l hl)
    rw [parse_of_fit_no_short m input hfit hns]
    have hnil : (textLines input).filter isRecordLine = [] := by
      rw [List.filter_eq_nil_iff]
      intro l hl
      rw [isRecordLine_of_comment l (hall l hl)]
      simp
    rw [hnil]
    rfl
  · intro pre c post hpre hnl hfit hc
    exact parse_insert_comment_line m pre c post hpre hnl hfit hc
  · intro pre c hnl hfit hc
    rw [parse_eq_parsePieces, parse_eq_parsePieces, split_append_sep,
      split_no_sep newline c hnl]
    rcases List.eq_nil_or_concat (Split pre newline) with h | ⟨front, last, h⟩
    · exact absurd h (split_ne_nil pre newline)
    · rw [h, List.concat_eq_append, List.append_assoc]
      exact parsePieces_append_comment m front last c hfit hc []

/-- C5 amended, at concrete files in strict mode: a file of comments and
blank lines; a comment of 7 fields put between two lines; a comment put after
the last line. -/
theorem comment_lines_are_skipped_witness :
    Parse false (bytes "# Netscape HTTP Cookie File\n\n#a\tb\tc\td\te\tf\tg\r\n\r\n") = .ok [] ∧
    Parse false (bytes "a.org\tTRUE\t/\tTRUE\t0\tid\t7\n" ++ bytes "#a\tb\tc\td\te\tf\tg" ++
        newline :: bytes "b.org\tTRUE\t/\tTRUE\t0\tid\t7\n") =
      Parse false (bytes "a.org\tTRUE\t/\tTRUE\t0\tid\t7\n" ++
        bytes "b.org\tTRUE\t/\tTRUE\t0\tid\t7\n") ∧
    Parse false (bytes "a.org\tTRUE\t/\tTRUE\t0\tid\t7" ++ newline :: bytes "# end") =
      Parse false (bytes "a.org\tTRUE\t/\tTRUE\t0\tid\t7") :=
  ⟨(comment_lines_are_skipped false).1 _ (by unfold linesFit; decide) (by decide),
   (comment_lines_are_skipped false).2.1 (bytes "a.org\tTRUE\t/\tTRUE\t0\tid\t7\n")
     (bytes "#a\tb\tc\td\te\tf\tg") (bytes "b.org\tTRUE\t/\tTRUE\t0\tid\t7\n")
     (Or.inr (by decide)) (by decide) (by decide) (by decide),
   (comment_lines_are_skipped false).2.2 (bytes "a.org\tTRUE\t/\tTRUE\t0\tid\t7")
     (bytes "# end") (by decide) (by decide) (by decide)⟩

/-! ## C7 -/

/-- C7 fails as stated: the input of 65536 tab characters is one line that is
not empty, does not start with `'#'` and has 65537 fields, yet `Parse`
returns the scanner error `ErrTooLong` in both modes. -/
theorem order_and_multiplicity_counterexample :
    isRecordLine (tab :: List.replicate 65535 tab) = true ∧
    newline ∉ (tab :: List.replicate 65535 tab : Str) ∧
    Parse false (tab :: List.replicate 65535 tab) = .error .ErrTooLong ∧
    Parse true (tab :: List.replicate 65535 tab) = .error .ErrTooLong := by
  have hn : newline ∉ (tab :: List.replicate 65535 tab : Str) :=
    newline_not_mem_repeat 65535 tab (by decide)
  have hlen := repeat_too_long 65535 tab (by decide)
  refine ⟨?_, hn, parse_too_long false _ hn hlen, parse_too_long true _ hn hlen⟩
  unfold isRecordLine
  rw [split_length, List.count_cons_self, List.count_replicate_self]
  rfl

/-- C7, amended: in either mode, for every input whose lines, each counted
with the final `'\r'` that the scanner strips from it, are all shorter than
65536 bytes and whose lines that are not empty and do not start with `'#'`
all have at least 7 tab-separated fields, `Parse` returns no error and
the collection of the records of those lines, one for each in the order of
the lines: as many records as lines, the `i`-th record built from the `i`-th
line, and two equal lines next to each other give two equal records next to
each other. -/
theorem parse_keeps_order_and_duplicates (m : Bool) (input : Str) (hfit : linesFit input)
    (hall : ∀ l ∈ textLines input, isCommentLine l = false → 7 ≤ (Split l tab).length) :
    ∃ cs, Parse m input = .ok cs ∧
      cs = ((textLines input).filter (fun l => !isCommentLine l)).map recordOf ∧
      cs.length = ((textLines input).filter (fun l => !isCommentLine l)).length ∧
      (∀ (i : Nat) (line : Str),
        ((textLines input).filter (fun l => !isCommentLine l))[i]? = some line →
        cs[i]? = some (recordOf line)) ∧
      (∀ (i : Nat) (line : Str),
        ((textLines input).filter (fun l => !isCommentLine l))[i]? = some line →
        ((textLines input).filter (fun l => !isCommentLine l))[i + 1]? = some line →
        cs[i]? = some (recordOf line) ∧ cs[i + 1]? = some (recordOf line)) := by
  have hns : ∀ l ∈ textLines input, isShortLine l = false := by
    intro l hl
    cases hs : isShortLine l with
    | false => rfl
    | true =>
      have h7 := hall l hl (isCommentLine_of_short l hs)
      unfold isShortLine at hs
      simp only [Bool.and_eq_true, decide_eq_true_eq] at hs
      omega
  have hcongr : (textLines input).filter isRecordLine =
      (textLines input).filter (fun l => !isCommentLine l) := by
    apply List.filter_congr
    intro l hl
    rcases line_cases l with hc | hc | hc
    · simp [hc, isRecordLine_of_comment l hc]
    · rw [hns l hl] at hc
      exact absurd hc (by simp)
    · simp [hc, isCommentLine_of_record l hc]
  refine ⟨_, parse_of_fit_no_short m input hfit hns, by rw [hcongr], by simp [hcongr], ?_, ?_⟩
  · intro i line hi
    rw [hcongr, List.getElem?_map, hi]
    rfl
  · intro i line hi hj
    rw [hcongr]
    constructor
    · rw [List.getElem?_map, hi]
      rfl
    · rw [List.getElem?_map, hj]
      rfl

/-- C7 amended, at a file of two equal lines between a comment and a third
line, in strict mode: three records, the first two equal. -/
theorem parse_keeps_order_and_duplicates_witness :
    Parse false (bytes "#c\na.org\tTRUE\t/\tTRUE\t0\tid\t7\na.org\tTRUE\t/\tTRUE\t0\tid\t7\nb.org\tFALSE\t/\tTRUE\t0\tk\tv\n") =
      .ok [recordOf (bytes "a.org\tTRUE\t/\tTRUE\t0\tid\t7"),
           recordOf (bytes "a.org\tTRUE\t/\tTRUE\t0\tid\t7"),
           recordOf (bytes "b.org\tFALSE\t/\tTRUE\t0\tk\tv")] := by
  obtain ⟨cs, hparse, hcs, _⟩ := parse_keeps_order_and_duplicates false
    (bytes "#c\na.org\tTRUE\t/\tTRUE\t0\tid\t7\na.org\tTRUE\t/\tTRUE\t0\tid\t7\nb.org\tFALSE\t/\tTRUE\t0\tk\tv\n")
    (by unfold linesFit; decide) (by decide)
  rw [hparse, hcs]
  rfl

/-! ## C8 -/

theorem foldl_append_filter {α : Type} (p : α → Prop) [DecidablePred p] (l acc : List α) :
    l.foldl (fun out c => if p c then out ++ [c] else out) acc =
      acc ++ l.filter (fun c => decide (p c)) := by
  induction l generalizing acc with
  | nil => simp
  | cons c l ih =>
    rw [List.foldl_cons, ih]
    by_cases hc : p c <;> simp [hc, List.filter_cons]

theorem hasPrefix_iff (s pre : Str) : HasPrefix s pre = true ↔ pre <+: s := by
  unfold HasPrefix
  exact List.isPrefixOf_iff_prefix

/-- C8: `Filter` returns the records of the collection, in their order, whose
domain equals `domain` and whose path is a prefix of `path`; the result is a
sub-sequence of the collection, and it is empty when no record matches. The
record with domain `example.com` and path `/api` is kept for the path
`/api/v1` and not kept for the path `/a`. -/
theorem filter_by_scope (cs : Cookies) (domain path : Str) :
    cs.Filter domain path =
      cs.filter (fun c => decide (c.Domain = domain ∧ c.Path <+: path)) ∧
    List.Sublist (cs.Filter domain path) cs ∧
    (∀ c, c ∈ cs.Filter domain path ↔ c ∈ cs ∧ c.Domain = domain ∧ c.Path <+: path) ∧
    ((∀ c ∈ cs, ¬ (c.Domain = domain ∧ c.Path <+: path)) → cs.Filter domain path = []) ∧
    (∀ c : Cookie, c.Domain = bytes "example.com" → c.Path = bytes "/api" →
      Cookies.Filter [c] (bytes "example.com") (bytes "/api/v1") = [c] ∧
      Cookies.Filter [c] (bytes "example.com") (bytes "/a") = []) := by
  have hfilter : ∀ (xs : Cookies) (d p : Str), xs.Filter d p =
      xs.filter (fun c => decide (c.Domain = d ∧ c.Path <+: p)) := by
    intro xs d p
    unfold Cookies.Filter
    simp only [hasPrefix_iff]
    rw [foldl_append_filter (fun c : Cookie => c.Domain = d ∧ c.Path <+: p)]
    simp
  refine ⟨hfilter cs domain path, ?_, ?_, ?_, ?_⟩
  · rw [hfilter]
    exact List.filter_sublist cs
  · intro c
    rw [hfilter, List.mem_filter]
    simp
  · intro hnone
    rw [hfilter, List.filter_eq_nil_iff]
    intro c hc
    simpa using hnone c hc
  · intro c hd hp
    rw [hfilter, hfilter]
    have h1 : (bytes "/api") <+: (bytes "/api/v1") := by decide
    have h2 : ¬ (bytes "/api") <+: (bytes "/a") := by decide
    simp [List.filter_cons, hd, hp, h1, h2]

/-- C8 at a collection of three records: the query `example.com`, `/api/v1`
keeps the first and the third, in this order; a query for a sub-domain keeps
nothing. -/
theorem filter_by_scope_witness :
    Cookies.Filter
      [{ Domain := bytes "example.com", Expires := Time.Unix 5 0, HttpOnly := false,
         Name := bytes "a", Path := bytes "/api", Secure := false, Value := bytes "1" },
       { Domain := bytes "www.example.com", Expires := Time.Unix 5 0, HttpOnly := false,
         Name := bytes "b", Path := bytes "/", Secure := false, Value := bytes "2" },
       { Domain := bytes "example.com", Expires := Time.Unix 5 0, HttpOnly := false,
         Name := bytes "c", Path := bytes "/", Secure := false, Value := bytes "3" }]
      (bytes "example.com") (bytes "/api/v1") =
      [{ Domain := bytes "example.com", Expires := Time.Unix 5 0, HttpOnly := false,
         Name := bytes "a", Path := bytes "/api", Secure := false, Value := bytes "1" },
       { Domain := bytes "example.com", Expires := Time.Unix 5 0, HttpOnly := false,
         Name := bytes "c", Path := bytes "/", Secure := false, Value := bytes "3" }] ∧
    Cookies.Filter
      [{ Domain := bytes "example.com", Expires := Time.Unix 5 0, HttpOnly := false,
         Name := bytes "a", Path := bytes "/api", Secure := false, Value := bytes "1" }]
      (bytes "api.example.com") (bytes "/api") = [] :=
  ⟨(filter_by_scope _ _ _).1.trans (by decide),
   (filter_by_scope _ (bytes "api.example.com") (bytes "/api")).2.2.2.1 (by decide)⟩

/-! ## C9 -/

theorem validLoop_const (now : Time) (l : List Cookie) (i : Nat) (acc : Cookies) :
    validLoop (fun _ => now) i l acc =
      acc ++ l.filter (fun c => decide (now.sec < c.Expires.sec ∨
        (now.sec = c.Expires.sec ∧ now.nsec < c.Expires.nsec))) := by
  induction l generalizing i acc with
  | nil => simp [validLoop]
  | cons c l ih =>
    have hb : (now.Before c.Expires = true) ↔
        (now.sec < c.Expires.sec ∨ (now.sec = c.Expires.sec ∧ now.nsec < c.Expires.nsec)) := by
      simp [Time.Before]
    by_cases hc : now.sec < c.Expires.sec ∨ (now.sec = c.Expires.sec ∧ now.nsec < c.Expires.nsec)
    · rw [validLoop, if_pos (hb.mpr hc), ih, List.filter_cons, if_pos (by simpa using hc)]
      simp
    · rw [validLoop, if_neg (fun h => hc (hb.mp h)), ih, List.filter_cons,
        if_neg (by simpa using hc)]

/-- C9: `Valid`, when the clock reads `now`, returns the records of the
collection, in their order, whose expiry is strictly after `now`, as
`now.Before` orders the time values: by their seconds, then by their
nanoseconds, which is the order of their instants in nanoseconds. A record
that expires at `now` is not in the result, a record whose expiry is the time
value one second after `now` is, and the result is empty when no record
expires after `now`. -/
theorem valid_keeps_later (cs : Cookies) (now : Time) :
    cs.Valid (fun _ => now) =
      cs.filter (fun c => decide (now.sec < c.Expires.sec ∨
        (now.sec = c.Expires.sec ∧ now.nsec < c.Expires.nsec))) ∧
    List.Sublist (cs.Valid (fun _ => now)) cs ∧
    (∀ c ∈ cs, (c ∈ cs.Valid (fun _ => now) ↔ now.nanos < c.Expires.nanos)) ∧
    (∀ c ∈ cs, (c ∈ cs.Valid (fun _ => now) ↔ now.Before c.Expires = true)) ∧
    (∀ c, c.Expires = now → c ∉ cs.Valid (fun _ => now)) ∧
    (∀ c ∈ cs, c.Expires.sec = now.sec + 1 → c.Expires.nsec = now.nsec →
      c ∈ cs.Valid (fun _ => now)) ∧
    ((∀ c ∈ cs, ¬ (now.sec < c.Expires.sec ∨
        (now.sec = c.Expires.sec ∧ now.nsec < c.Expires.nsec))) →
      cs.Valid (fun _ => now) = []) := by
  have hfilter : cs.Valid (fun _ => now) =
      cs.filter (fun c => decide (now.sec < c.Expires.sec ∨
        (now.sec = c.Expires.sec ∧ now.nsec < c.Expires.nsec))) := by
    unfold Cookies.Valid
    rw [validLoop_const]
    simp
  refine ⟨hfilter, ?_, ?_, ?_, ?_, ?_, ?_⟩
  · rw [hfilter]
    exact List.filter_sublist cs
  · intro c hc
    have hn := now.nsecRange
    have he := c.Expires.nsecRange
    rw [hfilter, List.mem_filter]
    simp only [hc, true_and, decide_eq_true_eq, Time.nanos]
    omega
  · intro c hc
    rw [hfilter, List.mem_filter]
    simp [hc, Time.Before]
  · intro c he
    rw [hfilter, List.mem_filter]
    simp [he]
  · intro c hc hs hn
    rw [hfilter, List.mem_filter]
    simp [hc, hs, hn]
  · intro hnone
    rw [hfilter, List.filter_eq_nil_iff]
    intro c hc
    simpa using hnone c hc

/-- C9 at a collection of records that expire one second before `now`, at
`now`, one second after and one nanosecond after: the last two are kept. A
record with the expiry `time.Unix(math.MaxInt64, 0)`, whose seconds wrap into
the past, is not kept. -/
theorem valid_keeps_later_witness :
    Cookies.Valid
      [{ Domain := [], Expires := Time.Unix 99 0, HttpOnly := false,
         Name := bytes "a", Path := [], Secure := false, Value := [] },
       { Domain := [], Expires := Time.Unix 100 0, HttpOnly := false,
         Name := bytes "b", Path := [], Secure := false, Value := [] },
       { Domain := [], Expires := Time.Unix 101 0, HttpOnly := false,
         Name := bytes "c", Path := [], Secure := false, Value := [] },
       { Domain := [], Expires := Time.Unix 100 1, HttpOnly := false,
         Name := bytes "d", Path := [], Secure := false, Value := [] },
       { Domain := [], Expires := Time.Unix 9223372036854775807 0, HttpOnly := false,
         Name := bytes "e", Path := [], Secure := false, Value := [] }]
      (fun _ => Time.Unix 100 0) =
      [{ Domain := [], Expires := Time.Unix 101 0, HttpOnly := false,
         Name := bytes "c", Path := [], Secure := false, Value := [] },
       { Domain := [], Expires := Time.Unix 100 1, HttpOnly := false,
         Name := bytes "d", Path := [], Secure := false, Value := [] }] ∧
    Cookies.Valid
      [{ Domain := [], Expires := Time.Unix 100 0, HttpOnly := false,
         Name := bytes "b", Path := [], Secure := false, Value := [] }]
      (fun _ => Time.Unix 100 0) = [] :=
  ⟨(valid_keeps_later _ _).1.trans (by decide),
   (valid_keeps_later _ (Time.Unix 100 0)).2.2.2.2.2.2 (by decide)⟩

/-! ## C10 -/

theorem dropCR_of_not_mem (p : Str) (h : carriageReturn ∉ p) : dropCR p = p := by
  unfold dropCR
  rw [if_neg]
  intro hl
  exact h (List.mem_of_getLast?_eq_some hl)

theorem dropCR_append_cr (p : Str) : dropCR (p ++ [carriageReturn]) = p := by
  unfold dropCR
  rw [List.getLast?_concat, if_pos rfl, List.dropLast_concat]

theorem mem_of_mem_dropCR (p : Str) (b : UInt8) (h : b ∈ dropCR p) : b ∈ p := by
  unfold dropCR at h
  split at h
  · exact (List.dropLast_sublist p).subset h
  · exact h

theorem crlfPieces_ne_nil (ps : List Str) (h : ps ≠ []) : crlfPieces ps ≠ [] := by
  cases ps with
  | nil => exact absurd rfl h
  | cons p rest =>
    cases rest with
    | nil => simp [crlfPieces]
    | cons q qs => simp [crlfPieces]

theorem crlfPieces_cons (p : Str) (rest : List Str) (h : rest ≠ []) :
    crlfPieces (p :: rest) = (p ++ [carriageReturn]) :: crlfPieces rest := by
  cases rest with
  | nil => exact absurd rfl h
  | cons q qs => rw [crlfPieces]

theorem crlfPieces_consHead (b : UInt8) (ps : List Str) (h : ps ≠ []) :
    crlfPieces (consHead b ps) = consHead b (crlfPieces ps) := by
  cases ps with
  | nil => exact absurd rfl h
  | cons p rest =>
    cases rest with
    | nil => rfl
    | cons q qs => rfl

/-- The pieces of the text with CRLF line ends. -/
theorem split_toCRLF (s : Str) :
    Split (toCRLF s) newline = crlfPieces (Split s newline) := by
  induction s with
  | nil => rfl
  | cons b rest ih =>
    by_cases hb : b = newline
    · subst hb
      have hcr : ¬ carriageReturn = newline := by decide
      rw [toCRLF, if_pos rfl, Split, if_neg hcr, Split, if_pos rfl, ih, Split, if_pos rfl,
        crlfPieces_cons _ _ (split_ne_nil rest newline)]
      rfl
    · rw [toCRLF, if_neg hb, Split, if_neg hb, ih, Split, if_neg hb,
        crlfPieces_consHead b _ (split_ne_nil rest newline)]

/-- The scanner delivers the same lines with CRLF line ends, when no line has
a `'\r'` and no line that a newline ends is one byte below the buffer
bound. -/
theorem scanPieces_crlfPieces (ps : List Str) (hcr : ∀ p ∈ ps, carriageReturn ∉ p)
    (hlen : ∀ p ∈ ps.dropLast, p.length + 1 ≠ MaxScanTokenSize) :
    scanPieces (crlfPieces ps) = scanPieces ps := by
  induction ps with
  | nil => rfl
  | cons p rest ih =>
    cases rest with
    | nil => rfl
    | cons q qs =>
      have hne : q :: qs ≠ [] := by simp
      have hp : p.length + 1 ≠ MaxScanTokenSize := hlen p (by simp)
      have hrest : scanPieces (crlfPieces (q :: qs)) = scanPieces (q :: qs) := by
        apply ih
        · exact fun r hr => hcr r (List.mem_cons_of_mem _ hr)
        · intro r hr
          apply hlen r
          rw [List.dropLast_cons₂]
          exact List.mem_cons_of_mem _ hr
      rw [crlfPieces_cons p _ hne, scanPieces_cons _ _ (crlfPieces_ne_nil _ hne),
        scanPieces_cons _ _ hne, hrest, dropCR_append_cr,
        dropCR_of_not_mem p (hcr p (by simp))]
      have hiff : (MaxScanTokenSize ≤ (p ++ [carriageReturn]).length) ↔
          (MaxScanTokenSize ≤ p.length) := by
        rw [List.length_append, List.length_singleton]
        omega
      by_cases hl : MaxScanTokenSize ≤ p.length
      · rw [if_pos hl, if_pos (hiff.mpr hl)]
      · rw [if_neg hl, if_neg (fun h => hl (hiff.mp h))]

theorem mem_linesOfPieces (ps : List Str) (l : Str) (h : l ∈ linesOfPieces ps) :
    ∃ p ∈ ps, l = dropCR p := by
  induction ps with
  | nil => simp [linesOfPieces] at h
  | cons p rest ih =>
    cases rest with
    | nil =>
      rw [linesOfPieces] at h
      split at h
      · simp at h
      · simp only [List.mem_singleton] at h
        exact ⟨p, by simp, h⟩
    | cons q qs =>
      rw [linesOfPieces] at h
      rcases List.mem_cons.mp h with h | h
      · exact ⟨p, by simp, h⟩
      · obtain ⟨r, hr, e⟩ := ih h
        exact ⟨r, List.mem_cons_of_mem _ hr, e⟩

theorem mem_of_mem_getD (xs : List Str) (k : Nat) (b : UInt8) (h : b ∈ xs.getD k []) :
    ∃ x ∈ xs, b ∈ x := by
  induction xs generalizing k with
  | nil => simp at h
  | cons x xs ih =>
    cases k with
    | zero => exact ⟨x, by simp, by simpa using h⟩
    | succ k =>
      obtain ⟨y, hy, hb⟩ := ih k (by simpa using h)
      exact ⟨y, List.mem_cons_of_mem _ hy, hb⟩

/-- Every byte of a field of a line of the text is a byte of the text. -/
theorem mem_input_of_mem_field (input l : Str) (k : Nat) (b : UInt8)
    (hl : l ∈ textLines input) (hb : b ∈ field l k) : b ∈ input := by
  obtain ⟨x, hx, hbx⟩ := mem_of_mem_getD _ k b hb
  have hbl : b ∈ l := mem_of_mem_split tab l x hx b hbx
  obtain ⟨p, hp, rfl⟩ := mem_linesOfPieces _ l hl
  exact mem_of_mem_split newline input p hp b (mem_of_mem_dropCR p b hbl)

/-- C10 fails as stated: the input of 65535 bytes `a` and a newline has no
`'\r'`; lenient `Parse` returns the empty collection and no error on it, and
the scanner error `ErrTooLong` on the same text with `"\r\n"` for `"\n"`. -/
theorem crlf_counterexample :
    carriageReturn ∉ (97 :: List.replicate 65534 97 ++ [newline] : Str) ∧
    Parse true (97 :: List.replicate 65534 97 ++ [newline]) = .ok [] ∧
    Parse true (toCRLF (97 :: List.replicate 65534 97 ++ [newline])) = .error .ErrTooLong := by
  have hmem : ∀ b : UInt8, b ≠ 97 → b ∉ (97 :: List.replicate 65534 97 : Str) := by
    intro b hb hm
    rcases List.mem_cons.mp hm with e | e
    · exact hb e
    · exact hb (List.eq_of_mem_replicate e)
  have hlen : (97 :: List.replicate 65534 97 : Str).length = 65535 := by
    rw [List.length_cons, List.length_replicate]
  have hsplit : Split (97 :: List.replicate 65534 97 ++ [newline]) newline =
      [97 :: List.replicate 65534 97, []] := by
    rw [split_append_sep, split_no_sep newline _ (hmem newline (by decide))]
    rfl
  refine ⟨?_, ?_, ?_⟩
  · intro hm
    rcases List.mem_append.mp hm with h | h
    · exact hmem carriageReturn (by decide) h
    · exact absurd (List.mem_singleton.mp h) (by decide)
  · rw [parse_eq_parsePieces, hsplit,
      parsePieces_cons true _ _ [] (by simp) (by rw [hlen]; decide),
      dropCR_of_not_mem _ (hmem carriageReturn (by decide)),
      if_neg (by rw [isCommentLine_of_short _ (isShortLine_repeat 65534 97 (by decide) (by decide))]; simp),
      if_pos (isShortLine_repeat 65534 97 (by decide) (by decide)), if_pos rfl,
      parsePieces_single true [] [] (by decide), if_pos (by decide)]
  · rw [parse_eq_parsePieces, split_toCRLF, hsplit, crlfPieces]
    apply parsePieces_too_long
    rw [List.length_append, hlen]
    decide

/-- C10, amended: for every input text without a carriage return in which no
line that a newline ends is exactly 65535 bytes long, the text with `"\r\n"`
for every `"\n"` gives the scanner the same lines and `Parse` the same result,
collection or error, in either mode; no value of a returned record ends with a
carriage return; and a line that is `"\r"` alone is read as the empty line. -/
theorem crlf_line_endings (m : Bool) (input : Str) (hcr : carriageReturn ∉ input)
    (hlen : ∀ p ∈ (Split input newline).dropLast, p.length + 1 ≠ MaxScanTokenSize) :
    scanLines (toCRLF input) = scanLines input ∧
    Parse m (toCRLF input) = Parse m input ∧
    (∀ cs, Parse m (toCRLF input) = .ok cs →
      ∀ c ∈ cs, c.Value.getLast? ≠ some carriageReturn) ∧
    (∀ pre post : Str, (pre = [] ∨ pre.getLast? = some newline) →
      Parse m (pre ++ carriageReturn :: newline :: post) = Parse m (pre ++ newline :: post)) := by
  have hscan : scanLines (toCRLF input) = scanLines input := by
    unfold scanLines
    rw [split_toCRLF]
    exact scanPieces_crlfPieces _
      (fun p hp h => hcr (mem_of_mem_split newline input p hp _ h)) hlen
  have hparse : Parse m (toCRLF input) = Parse m input := by
    unfold Parse
    rw [hscan]
  refine ⟨hscan, hparse, ?_, ?_⟩
  · intro cs hcs c hc hlast
    rw [hparse] at hcs
    rw [parse_ok_eq m input cs hcs] at hc
    obtain ⟨l, hl, rfl⟩ := List.mem_map.mp hc
    have hl2 : l ∈ textLines input := (List.mem_filter.mp hl).1
    exact hcr (mem_input_of_mem_field input l 6 _ hl2 (List.mem_of_getLast?_eq_some hlast))
  · intro pre post hpre
    have h1 := parse_insert_comment_line m pre [carriageReturn] post hpre
      (by decide) (by decide) (by decide)
    have h2 := parse_insert_comment_line m pre [] post hpre
      (by decide) (by decide) (by decide)
    have e1 : pre ++ [carriageReturn] ++ newline :: post =
        pre ++ carriageReturn :: newline :: post := by simp
    have e2 : pre ++ [] ++ newline :: post = pre ++ newline :: post := by simp
    rw [e1] at h1
    rw [e2] at h2
    rw [h1, h2]

/-- C10 amended, at a file of a comment, a record line and a line without
final newline, in strict mode. -/
theorem crlf_line_endings_witness :
    Parse false (toCRLF (bytes "#c\n\na.org\tTRUE\t/\tTRUE\t0\tid\t7\nb.org\tFALSE\t/\tTRUE\t0\tk\tv")) =
      Parse false (bytes "#c\n\na.org\tTRUE\t/\tTRUE\t0\tid\t7\nb.org\tFALSE\t/\tTRUE\t0\tk\tv") ∧
    toCRLF (bytes "#c\n\na.org\tTRUE\t/\tTRUE\t0\tid\t7\nb.org\tFALSE\t/\tTRUE\t0\tk\tv") =
      bytes "#c\r\n\r\na.org\tTRUE\t/\tTRUE\t0\tid\t7\r\nb.org\tFALSE\t/\tTRUE\t0\tk\tv" :=
  ⟨(crlf_line_endings false
      (bytes "#c\n\na.org\tTRUE\t/\tTRUE\t0\tid\t7\nb.org\tFALSE\t/\tTRUE\t0\tk\tv")
      (by decide) (by decide)).2.1, by decide⟩

/-! ## C11 -/

theorem string_foldl (timeString : Time → Str) (cs : Cookies) (s : Str) :
    cs.foldl (fun s c => s ++ (Cookie.String timeString c ++ bytes "\n")) s =
      s ++ Cookies.String timeString cs := by
  unfold Cookies.String
  induction cs generalizing s with
  | nil => simp
  | cons c cs ih =>
    rw [List.foldl_cons, ih, List.foldl_cons, ih ([] ++ _)]
    simp

theorem string_cons (timeString : Time → Str) (c : Cookie) (cs : Cookies) :
    Cookies.String timeString (c :: cs) =
      Cookie.String timeString c ++ bytes "\n" ++ Cookies.String timeString cs := by
  have h := string_foldl timeString cs ([] ++ (Cookie.String timeString c ++ bytes "\n"))
  unfold Cookies.String at h ⊢
  rw [List.foldl_cons, h]
  simp

/-- C11: `Cookies.String` is the concatenation, over the records in their
order, of the text `name=value; Domain=domain; Path=path; Expires=timestamp;
Secure=bool; HttpOnly=bool` of the record and one `"\n"`, the fields as they
are; the empty collection renders to the empty string; and `Cookies.Write`
hands exactly this string to the writer, in one call. -/
theorem string_is_concatenation (timeString : Time → Str) :
    Cookies.String timeString [] = [] ∧
    (∀ (c : Cookie) (cs : Cookies), Cookies.String timeString (c :: cs) =
      (c.Name ++ bytes "=" ++ c.Value ++ bytes "; Domain=" ++ c.Domain ++ bytes "; Path=" ++
        c.Path ++ bytes "; Expires=" ++ timeString c.Expires ++ bytes "; Secure=" ++
        (if c.Secure then bytes "true" else bytes "false") ++ bytes "; HttpOnly=" ++
        (if c.HttpOnly then bytes "true" else bytes "false")) ++ bytes "\n" ++
      Cookies.String timeString cs) ∧
    (∀ cs ds : Cookies, Cookies.String timeString (cs ++ ds) =
      Cookies.String timeString cs ++ Cookies.String timeString ds) ∧
    (∀ (σ : Type) (W : Writer σ) (w : σ) (cs : Cookies),
      Cookies.Write timeString cs W w = W.WriteString w (Cookies.String timeString cs)) ∧
    (∀ (buf : Str) (cs : Cookies), Cookies.Write timeString cs bufferWriter buf =
      (buf ++ Cookies.String timeString cs, none)) ∧
    Cookies.String (fun _ => bytes "T")
      [{ Domain := bytes "a.org", Expires := Time.Unix 1405544146 0, HttpOnly := false,
         Name := bytes "id", Path := bytes "/", Secure := true, Value := bytes "7;x" }] =
      bytes "id=7;x; Domain=a.org; Path=/; Expires=T; Secure=true; HttpOnly=false\n" := by
  refine ⟨rfl, ?_, ?_, ?_, ?_, by decide⟩
  · intro c cs
    rw [string_cons]
    rfl
  · intro cs ds
    induction cs with
    | nil => rfl
    | cons c cs ih =>
      rw [List.cons_append, string_cons, string_cons, ih]
      simp
  · intro σ W w cs
    rfl
  · intro buf cs
    rfl

/-! ## C12 -/

theorem stringJsonLoop_eq (marshal : Cookie → Except Str Str) (n : Nat) (l : List Cookie)
    (i : Nat) (s : Str) (h : i + l.length = n) :
    stringJsonLoop marshal n i l s = s ++ jsonBody (l.map (Cookie.StringJson marshal)) := by
  induction l generalizing i s with
  | nil => simp [stringJsonLoop, jsonBody]
  | cons c rest ih =>
    cases rest with
    | nil =>
      have hi : i + 1 = n := by simpa using h
      rw [stringJsonLoop, if_pos hi]
      simp [stringJsonLoop, jsonBody]
    | cons d r =>
      have hi : ¬ i + 1 = n := by
        simp only [List.length_cons] at h
        omega
      have hlen : i + 1 + (d :: r).length = n := by
        simp only [List.length_cons] at h ⊢
        omega
      rw [stringJsonLoop, if_neg hi, ih (i + 1) _ hlen]
      simp [jsonBody]

/-- The layout of `cs.StringJson()` from the renderings of the records. -/
theorem stringJson_eq (marshal : Cookie → Except Str Str) (cs : Cookies) :
    Cookies.StringJson marshal cs =
      bytes "[\n" ++ jsonBody (cs.map (Cookie.StringJson marshal)) ++ bytes "]\n" := by
  unfold Cookies.StringJson
  rw [stringJsonLoop_eq marshal cs.length cs 0 _ (by simp)]
  simp

/-- C12: `Cookies.StringJson` returns `"[\n"`, then the renderings
`Cookie.StringJson` of the records in their order, every one on a line of its
own with a comma after every one but the last, then `"]\n"`; the empty
collection renders to `"[\n]\n"`. -/
theorem stringJson_layout (marshal : Cookie → Except Str Str) :
    (∀ cs : Cookies, Cookies.StringJson marshal cs =
      bytes "[\n" ++ jsonBody (cs.map (Cookie.StringJson marshal)) ++ bytes "]\n") ∧
    Cookies.StringJson marshal [] = bytes "[\n]\n" ∧
    (∀ c : Cookie, Cookies.StringJson marshal [c] =
      bytes "[\n" ++ Cookie.StringJson marshal c ++ bytes "\n]\n") ∧
    (∀ c d : Cookie, Cookies.StringJson marshal [c, d] =
      bytes "[\n" ++ Cookie.StringJson marshal c ++ bytes ",\n" ++
        Cookie.StringJson marshal d ++ bytes "\n]\n") ∧
    (∀ (c : Cookie) (cs : Cookies), cs ≠ [] →
      jsonBody ((c :: cs).map (Cookie.StringJson marshal)) =
        Cookie.StringJson marshal c ++ bytes ",\n" ++
          jsonBody (cs.map (Cookie.StringJson marshal))) := by
  refine ⟨stringJson_eq marshal, by rfl, ?_, ?_, ?_⟩
  · intro c
    rw [stringJson_eq]
    simp [jsonBody]
    rfl
  · intro c d
    rw [stringJson_eq]
    simp [jsonBody]
    rfl
  · intro c cs hne
    cases cs with
    | nil => exact absurd rfl hne
    | cons d r => rfl

/-- C12 at a collection of three records, with an encoder that returns the
name of the record between parentheses. -/
theorem stringJson_layout_witness :
    Cookies.StringJson (fun c => .ok (bytes "(" ++ c.Name ++ bytes ")"))
      [{ Domain := [], Expires := Time.Unix 0 0, HttpOnly := false,
         Name := bytes "a", Path := [], Secure := false, Value := [] },
       { Domain := [], Expires := Time.Unix 0 0, HttpOnly := false,
         Name := bytes "b", Path := [], Secure := false, Value := [] },
       { Domain := [], Expires := Time.Unix 0 0, HttpOnly := false,
         Name := bytes "c", Path := [], Secure := false, Value := [] }] =
      bytes "[\n(a),\n(b),\n(c)\n]\n" :=
  ((stringJson_layout (fun c => .ok (bytes "(" ++ c.Name ++ bytes ")"))).1 _).trans (by decide)

/-! ## C17 -/

/-- C17: when the encoder fails with the message `msg` at a record of the
collection, `Cookies.StringJson` still returns a string that starts with
`"[\n"` and ends with `"]\n"`, with the rendering of every other record in its
place and order (the encoding itself where the encoder succeeds) and the text
`error: ` and `msg` in the place of the record. -/
theorem stringJson_embeds_error (marshal : Cookie → Except Str Str) (before after : Cookies)
    (c : Cookie) (msg : Str) (hfail : marshal c = .error msg) :
    Cookies.StringJson marshal (before ++ c :: after) =
      bytes "[\n" ++ jsonBody (before.map (Cookie.StringJson marshal) ++
        (bytes "error: " ++ msg) :: after.map (Cookie.StringJson marshal)) ++ bytes "]\n" ∧
    bytes "[\n" <+: Cookies.StringJson marshal (before ++ c :: after) ∧
    bytes "]\n" <:+ Cookies.StringJson marshal (before ++ c :: after) ∧
    (∀ (d : Cookie) (b : Str), marshal d = .ok b → Cookie.StringJson marshal d = b) := by
  have hc : Cookie.StringJson marshal c = bytes "error: " ++ msg := by
    unfold Cookie.StringJson
    rw [hfail]
  refine ⟨?_, ?_, ?_, ?_⟩
  · rw [stringJson_eq, List.map_append, List.map_cons, hc]
  · rw [stringJson_eq, List.append_assoc]
    exact List.prefix_append _ _
  · rw [stringJson_eq]
    exact List.suffix_append _ _
  · intro d b hd
    unfold Cookie.StringJson
    rw [hd]

/-- C17 at a collection of three records, with an encoder that fails at a
record whose expiry is before the epoch. -/
theorem stringJson_embeds_error_witness :
    Cookies.StringJson
      (fun c => if c.Expires.sec < 0 then .error (bytes "year outside of range")
        else .ok (bytes "(" ++ c.Name ++ bytes ")"))
      ([{ Domain := [], Expires := Time.Unix 0 0, HttpOnly := false,
          Name := bytes "a", Path := [], Secure := false, Value := [] }] ++
       { Domain := [], Expires := Time.Unix (-1) 0, HttpOnly := false,
         Name := bytes "b", Path := [], Secure := false, Value := [] } ::
       [{ Domain := [], Expires := Time.Unix 0 0, HttpOnly := false,
          Name := bytes "c", Path := [], Secure := false, Value := [] }]) =
      bytes "[\n(a),\nerror: year outside of range,\n(c)\n]\n" :=
  ((stringJson_embeds_error
      (fun c => if c.Expires.sec < 0 then .error (bytes "year outside of range")
        else .ok (bytes "(" ++ c.Name ++ bytes ")"))
      _ _ _ (bytes "year outside of range") (by rfl)).1).trans (by decide)

/-! ## C14 -/

/-- C14: when opening the file succeeds and reading it delivers the content
`b`, `ReadCookies`, `Cookies.ReadFile` and `Cookies.Read` yield the collection
and the error that `Parse` returns on `b` in the same mode; so `ReadCookies`
returns a collection that is not empty, and no error, when `Parse` does. -/
theorem load_is_parse (fs : FileSystem) (file b : Str) (softMode : Bool) (cs : Cookies)
    (hopen : fs file = .ok (.ok b)) :
    ReadCookies fs file softMode = parseResult (Parse softMode b) ∧
    Cookies.ReadFile cs fs file softMode = parseResult (Parse softMode b) ∧
    Cookies.Read cs (.ok b) softMode = parseResult (Parse softMode b) ∧
    (∀ parsed : Cookies, Parse softMode b = .ok parsed →
      ReadCookies fs file softMode = (parsed, none)) ∧
    (∀ err : ParseError, Parse softMode b = .error err →
      ReadCookies fs file softMode = ([], some (.parse err))) := by
  have hread : ∀ old : Cookies,
      Cookies.Read old (.ok b) softMode = parseResult (Parse softMode b) := by
    intro old
    unfold Cookies.Read parseResult
    simp only
  have hfile : ∀ old : Cookies,
      Cookies.ReadFile old fs file softMode = parseResult (Parse softMode b) := by
    intro old
    unfold Cookies.ReadFile
    rw [hopen]
    exact hread old
  refine ⟨hfile [], hfile cs, hread cs, ?_, ?_⟩
  · intro parsed hp
    unfold ReadCookies
    rw [hfile, hp]
    rfl
  · intro err hp
    unfold ReadCookies
    rw [hfile, hp]
    rfl

/-- C14 at a file system with the one file `cookies.txt`, of two well-formed
lines: `ReadCookies` returns the two records and no error. -/
theorem load_is_parse_witness :
    ReadCookies
      (fun name => if name = bytes "cookies.txt"
        then .ok (.ok (bytes "a.org\tTRUE\t/\tTRUE\t0\tid\t7\nb.org\tFALSE\t/\tTRUE\t0\tk\tv\n"))
        else .error { msg := bytes "no such file" })
      (bytes "cookies.txt") false =
      ([recordOf (bytes "a.org\tTRUE\t/\tTRUE\t0\tid\t7"),
        recordOf (bytes "b.org\tFALSE\t/\tTRUE\t0\tk\tv")], none) :=
  (load_is_parse
      (fun name => if name = bytes "cookies.txt"
        then .ok (.ok (bytes "a.org\tTRUE\t/\tTRUE\t0\tid\t7\nb.org\tFALSE\t/\tTRUE\t0\tk\tv\n"))
        else .error { msg := bytes "no such file" })
      (bytes "cookies.txt")
      (bytes "a.org\tTRUE\t/\tTRUE\t0\tid\t7\nb.org\tFALSE\t/\tTRUE\t0\tk\tv\n")
      false [] (by rfl)).2.2.2.1 _ (by rfl)

/-! ## C15 -/

theorem parseLoop_error (m : Bool) (lines : List Str) (acc : Cookies) (e : ParseError)
    (h : parseLoop m lines acc = .error e) : ∃ line, e = .invalidLine line := by
  induction lines generalizing acc with
  | nil => simp [parseLoop] at h
  | cons line rest ih =>
    rcases line_cases line with hc | hc | hc
    · rw [parseLoop_cons_comment m line rest acc hc] at h
      exact ih acc h
    · rw [parseLoop_cons_short m line rest acc hc] at h
      cases m with
      | false =>
        simp only [Bool.false_eq_true, if_false, Except.error.injEq] at h
        exact ⟨line, h.symm⟩
      | true =>
        simp only [if_true] at h
        exact ih acc h
    · rw [parseLoop_cons_record m line rest acc hc] at h
      exact ih _ h

theorem scanPieces_err (ps : List Str) (e : ParseError) (h : (scanPieces ps).err = some e) :
    e = .ErrTooLong := by
  induction ps with
  | nil => simp [scanPieces] at h
  | cons p rest ih =>
    by_cases hp : MaxScanTokenSize ≤ p.length
    · rw [scanPieces_too_long p rest hp] at h
      simp only [Option.some.injEq] at h
      exact h.symm
    · cases rest with
      | nil =>
        rw [scanPieces, if_neg hp] at h
        split at h <;> simp at h
      | cons q qs =>
        rw [scanPieces, if_neg hp] at h
        exact ih h

/-- The errors of `Parse`: an invalid line, or a line too long for the
scanner. -/
theorem parse_error_cases (m : Bool) (input : Str) (e : ParseError)
    (h : Parse m input = .error e) : (∃ line, e = .invalidLine line) ∨ e = .ErrTooLong := by
  unfold Parse at h
  split at h
  · rename_i e2 hloop
    simp only [Except.error.injEq] at h
    subst h
    exact Or.inl (parseLoop_error m _ [] _ hloop)
  · split at h
    · rename_i e2 herr
      simp only [Except.error.injEq] at h
      subst h
      exact Or.inr (scanPieces_err _ _ herr)
    · simp at h

theorem recordOf_expires (line : Str) :
    (recordOf line).Expires = { sec := 1405544146, nsec := 0 } := by
  have h : Time.Unix 1405544146 0 = { sec := 1405544146, nsec := 0 } := by decide
  exact h

/-- C15: every record of a collection `Parse` returns, in either mode, has
the expiry 1405544146 s after the Unix epoch, whatever field 4 of its line
holds, and `Parse` returns no invalid-expires error. -/
theorem expires_is_constant (softMode : Bool) (input : Str) :
    (∀ cs : Cookies, Parse softMode input = .ok cs →
      ∀ c ∈ cs, c.Expires = Time.Unix 1405544146 0 ∧
        c.Expires = { sec := 1405544146, nsec := 0 }) ∧
    (∀ err : NumError, Parse softMode input ≠ .error (.invalidExpires err)) := by
  constructor
  · intro cs hcs c hc
    rw [parse_ok_eq softMode input cs hcs] at hc
    obtain ⟨l, _, rfl⟩ := List.mem_map.mp hc
    exact ⟨rfl, recordOf_expires l⟩
  · intro err h
    rcases parse_error_cases softMode input _ h with ⟨line, hl⟩ | hl
    · exact ParseError.noConfusion hl
    · exact ParseError.noConfusion hl

/-- C15 at a file of three lines whose fields 4 are `0`, `abc` and empty, in
strict mode: no error, and the three records have the same expiry. -/
theorem expires_is_constant_witness :
    ∀ c ∈ [recordOf (bytes "a.org\tTRUE\t/\tTRUE\t0\tid\t7"),
           recordOf (bytes "b.org\tTRUE\t/\tTRUE\tabc\tid\t7"),
           recordOf (bytes "c.org\tTRUE\t/\tTRUE\t\tid\t7")],
      c.Expires = Time.Unix 1405544146 0 ∧ c.Expires = { sec := 1405544146, nsec := 0 } :=
  (expires_is_constant false
    (bytes "a.org\tTRUE\t/\tTRUE\t0\tid\t7\nb.org\tTRUE\t/\tTRUE\tabc\tid\t7\nc.org\tTRUE\t/\tTRUE\t\tid\t7\n")).1
    _ (by rfl)

/-! ## C19 -/

/-- C19: for a collection `cs` that `Parse` returns, in either mode, `Valid`
with the clock at the instant `now` returns `cs` itself or the empty
collection, and the empty collection when `now` is 1405544146 s after the
Unix epoch or later. -/
theorem valid_all_or_nothing (softMode : Bool) (input : Str) (cs : Cookies)
    (h : Parse softMode input = .ok cs) (now : Time) :
    (cs.Valid (fun _ => now) = cs ∨ cs.Valid (fun _ => now) = []) ∧
    (1405544146 ≤ now.sec → cs.Valid (fun _ => now) = []) ∧
    (now.sec < 1405544146 → cs.Valid (fun _ => now) = cs) := by
  have hexp : ∀ c ∈ cs, c.Expires = { sec := 1405544146, nsec := 0 } := by
    intro c hc
    rw [parse_ok_eq softMode input cs h] at hc
    obtain ⟨l, _, rfl⟩ := List.mem_map.mp hc
    exact recordOf_expires l
  have hfilter : cs.Valid (fun _ => now) =
      cs.filter (fun c => decide (now.sec < c.Expires.sec ∨
        (now.sec = c.Expires.sec ∧ now.nsec < c.Expires.nsec))) := by
    unfold Cookies.Valid
    rw [validLoop_const]
    simp
  have hlate : 1405544146 ≤ now.sec → cs.Valid (fun _ => now) = [] := by
    intro hnow
    rw [hfilter, List.filter_eq_nil_iff]
    intro c hc
    rw [hexp c hc]
    simp only [decide_eq_true_eq]
    omega
  have hearly : now.sec < 1405544146 → cs.Valid (fun _ => now) = cs := by
    intro hnow
    rw [hfilter, List.filter_eq_self]
    intro c hc
    rw [hexp c hc]
    simp only [decide_eq_true_eq]
    omega
  refine ⟨?_, hlate, hearly⟩
  by_cases hnow : now.sec < 1405544146
  · exact Or.inl (hearly hnow)
  · exact Or.inr (hlate (by omega))

/-- C19 at a file of two lines with expiry fields in 2033 and the clock in
2020, at 1600000000 s: `Valid` returns nothing. -/
theorem valid_all_or_nothing_witness :
    Cookies.Valid
      [recordOf (bytes "a.org\tTRUE\t/\tTRUE\t2000000000\tid\t7"),
       recordOf (bytes "b.org\tTRUE\t/\tTRUE\t2000000001\tid\t7")]
      (fun _ => Time.Unix 1600000000 0) = [] :=
  (valid_all_or_nothing true
    (bytes "a.org\tTRUE\t/\tTRUE\t2000000000\tid\t7\nb.org\tTRUE\t/\tTRUE\t2000000001\tid\t7\n")
    _ (by rfl) (Time.Unix 1600000000 0)).2.1 (by decide)

/-! ## C20 -/

/-- C20: when `Parse` fails on the content of the stream, in strict mode as
in lenient mode, `Cookies.Read` returns the error of `Parse` and leaves the
collection empty, whatever records it held; when reading the stream fails,
`Read` returns that error and leaves the collection as it was. -/
theorem failed_read_is_not_atomic (cs : Cookies) :
    (∀ (input : Str) (err : ParseError), Parse false input = .error err →
      Cookies.Read cs (.ok input) false = ([], some (.parse err))) ∧
    (∀ (softMode : Bool) (input : Str) (err : ParseError),
      Parse softMode input = .error err →
      Cookies.Read cs (.ok input) softMode = ([], some (.parse err))) ∧
    (∀ (softMode : Bool) (err : StreamError),
      Cookies.Read cs (.error err) softMode = (cs, some (.stream err))) := by
  refine ⟨?_, ?_, ?_⟩
  · intro input err h
    unfold Cookies.Read
    simp only [h]
  · intro softMode input err h
    unfold Cookies.Read
    simp only [h]
  · intro softMode err
    rfl

/-- C20 at a collection of one record and a stream with a line of 3 fields:
the strict `Read` returns the invalid-line error and the record is gone. -/
theorem failed_read_is_not_atomic_witness :
    Cookies.Read [recordOf (bytes "a.org\tTRUE\t/\tTRUE\t0\tid\t7")]
      (.ok (bytes "x\ty\tz\n")) false =
      ([], some (.parse (.invalidLine (bytes "x\ty\tz")))) :=
  (failed_read_is_not_atomic [recordOf (bytes "a.org\tTRUE\t/\tTRUE\t0\tid\t7")]).1
    (bytes "x\ty\tz\n") (.invalidLine (bytes "x\ty\tz")) (by rfl)

/-! ## C16 -/

theorem not_mem_of_mem_split (sep : UInt8) (s p : Str) (hp : p ∈ Split s sep) : sep ∉ p := by
  induction s generalizing p with
  | nil =>
    simp [Split] at hp
    simp [hp]
  | cons x a ih =>
    by_cases hx : x = sep
    · simp only [Split, hx, if_true, List.mem_cons] at hp
      rcases hp with hp | hp
      · simp [hp]
      · exact ih p hp
    · rw [Split, if_neg hx] at hp
      have hne := split_ne_nil a sep
      cases hs : Split a sep with
      | nil => exact absurd hs hne
      | cons q qs =>
        rw [hs] at hp ih
        simp only [consHead, List.mem_cons] at hp
        rcases hp with hp | hp
        · subst hp
          intro hm
          rcases List.mem_cons.mp hm with e | e
          · exact hx e.symm
          · exact ih q (by simp) e
        · exact ih p (by simp [hp])

theorem split_joinTab (ps : List Str) (hne : ps ≠ []) (h : ∀ p ∈ ps, tab ∉ p) :
    Split (joinTab ps) tab = ps := by
  induction ps with
  | nil => exact absurd rfl hne
  | cons p rest ih =>
    cases rest with
    | nil =>
      rw [joinTab]
      exact split_no_sep tab p (h p (by simp))
    | cons q qs =>
      rw [joinTab, split_append_sep, split_no_sep tab p (h p (by simp)),
        ih (by simp) (fun r hr => h r (List.mem_cons_of_mem _ hr))]
      rfl

theorem joinTab_consHead (b : UInt8) (ps : List Str) (hne : ps ≠ []) :
    joinTab (consHead b ps) = b :: joinTab ps := by
  cases ps with
  | nil => exact absurd rfl hne
  | cons p rest =>
    cases rest with
    | nil => rfl
    | cons q qs => rfl

theorem joinTab_split (s : Str) : joinTab (Split s tab) = s := by
  induction s with
  | nil => rfl
  | cons x a ih =>
    by_cases hx : x = tab
    · have hne := split_ne_nil a tab
      cases hs : Split a tab with
      | nil => exact absurd hs hne
      | cons q qs =>
        rw [Split, if_pos hx, hs, joinTab, ← hs, ih, hx]
        rfl
    · rw [Split, if_neg hx, joinTab_consHead x _ (split_ne_nil a tab), ih]

theorem getD_take (ps : List Str) (n k : Nat) (h : k < n) :
    (ps.take n).getD k [] = ps.getD k [] := by
  induction ps generalizing n k with
  | nil => simp
  | cons p rest ih =>
    cases n with
    | zero => omega
    | succ n =>
      cases k with
      | zero => simp
      | succ k =>
        simp only [List.take_succ_cons, List.getD_cons_succ]
        exact ih n k (by omega)

theorem dropCR_of_getLast (p : Str) (h : p.getLast? ≠ some carriageReturn) : dropCR p = p := by
  unfold dropCR
  rw [if_neg h]

/-- The first seven fields of a line of more than 7 fields: a line of 7
fields with the same first byte. -/
theorem firstSeven_facts (line : Str) (hfields : 7 < (Split line tab).length) :
    Split (firstSeven line) tab = (Split line tab).take 7 ∧
    firstSeven line ≠ [] ∧ (firstSeven line).head? = line.head? := by
  have htake : (Split line tab).take 7 ≠ [] := by
    intro h
    have hl := congrArg List.length h
    rw [List.length_take] at hl
    simp only [List.length_nil] at hl
    omega
  have hsplit : Split (firstSeven line) tab = (Split line tab).take 7 := by
    unfold firstSeven
    exact split_joinTab _ htake
      (fun p hp => not_mem_of_mem_split tab line p (List.mem_of_mem_take hp))
  refine ⟨hsplit, ?_, ?_⟩
  · intro h
    rw [h] at hsplit
    have hl := congrArg List.length hsplit
    rw [List.length_take] at hl
    simp only [Split, List.length_singleton] at hl
    omega
  · have hjoin := joinTab_split line
    unfold firstSeven
    cases hs : Split line tab with
    | nil => rw [hs] at hfields; simp at hfields
    | cons p rest =>
      cases rest with
      | nil => rw [hs] at hfields; simp at hfields
      | cons q qs =>
        rw [hs] at hjoin
        rw [← hjoin]
        simp only [List.take_succ_cons, joinTab]
        cases p <;> rfl

theorem field_firstSeven (line : Str) (hfields : 7 < (Split line tab).length) (k : Nat)
    (hk : k < 7) : field (firstSeven line) k = field line k := by
  unfold field
  rw [(firstSeven_facts line hfields).1]
  exact getD_take _ 7 k hk

theorem recordOf_firstSeven (line : Str) (hfields : 7 < (Split line tab).length) :
    recordOf (firstSeven line) = recordOf line := by
  unfold recordOf
  rw [field_firstSeven line hfields 0 (by decide), field_firstSeven line hfields 1 (by decide),
    field_firstSeven line hfields 2 (by decide), field_firstSeven line hfields 3 (by decide),
    field_firstSeven line hfields 5 (by decide), field_firstSeven line hfields 6 (by decide)]

theorem isRecordLine_of (line : Str) (h1 : isCommentLine line = false)
    (h2 : 7 ≤ (Split line tab).length) : isRecordLine line = true := by
  rcases line_cases line with hc | hc | hc
  · rw [h1] at hc
    exact absurd hc (by simp)
  · unfold isShortLine at hc
    simp only [Bool.and_eq_true, decide_eq_true_eq] at hc
    omega
  · exact hc

theorem tab_not_mem_field (line : Str) (k : Nat) : tab ∉ field line k := by
  intro hm
  obtain ⟨x, hx, hbx⟩ := mem_of_mem_getD _ k tab hm
  exact not_mem_of_mem_split tab line x hx hbx

/-- A line alone in the input, when it fits the buffer, has at least 7 fields
and is no comment: `Parse` returns its record. -/
theorem parse_single_record_line (m : Bool) (line : Str) (hnl : newline ∉ line)
    (hcr : line.getLast? ≠ some carriageReturn) (hfit : line.length < MaxScanTokenSize)
    (hrec : isRecordLine line = true) : Parse m line = .ok [recordOf line] := by
  rw [parse_eq_parsePieces, split_no_sep newline line hnl, parsePieces_single m line [] hfit,
    dropCR_of_getLast line hcr]
  simp [isCommentLine_of_record line hrec, isShortLine_of_record line hrec]

/-- C16 fails as stated: the input of 65536 tab characters is one line that is
no comment and has 65537 fields, yet `Parse` does not accept it: it returns
the scanner error `ErrTooLong` in both modes. -/
theorem extra_fields_counterexample :
    isCommentLine (tab :: List.replicate 65535 tab) = false ∧
    7 < (Split (tab :: List.replicate 65535 tab) tab).length ∧
    newline ∉ (tab :: List.replicate 65535 tab : Str) ∧
    Parse false (tab :: List.replicate 65535 tab) = .error .ErrTooLong ∧
    Parse true (tab :: List.replicate 65535 tab) = .error .ErrTooLong := by
  have hn : newline ∉ (tab :: List.replicate 65535 tab : Str) :=
    newline_not_mem_repeat 65535 tab (by decide)
  have hlen := repeat_too_long 65535 tab (by decide)
  refine ⟨rfl, ?_, hn, parse_too_long false _ hn hlen, parse_too_long true _ hn hlen⟩
  rw [split_length, List.count_cons_self, List.count_replicate_self]
  decide

/-! ## C18 -/

theorem parseLoop_strict_ok_no_short (lines : List Str) (acc cs : Cookies)
    (h : parseLoop false lines acc = .ok cs) : ∀ l ∈ lines, isShortLine l = false := by
  induction lines generalizing acc with
  | nil => simp
  | cons line rest ih =>
    intro l hl
    rcases line_cases line with hc | hc | hc
    · rw [parseLoop_cons_comment false line rest acc hc] at h
      rcases List.mem_cons.mp hl with e | e
      · rw [e]
        exact isShortLine_of_comment line hc
      · exact ih acc h l e
    · rw [parseLoop_cons_short false line rest acc hc] at h
      simp at h
    · rw [parseLoop_cons_record false line rest acc hc] at h
      rcases List.mem_cons.mp hl with e | e
      · rw [e]
        exact isShortLine_of_record line hc
      · exact ih _ h l e

theorem parse_strict_ok_no_short (input : Str) (cs : Cookies)
    (h : Parse false input = .ok cs) : ∀ l ∈ textLines input, isShortLine l = false := by
  unfold Parse at h
  split at h
  · simp at h
  · rename_i cookies hloop
    split at h
    · simp at h
    · rename_i herr
      have ht : (scanLines input).tokens = textLines input :=
        scanPieces_tokens_of_err_none _ herr
      rw [ht] at hloop
      exact parseLoop_strict_ok_no_short _ [] _ hloop

/-- When strict `Parse` succeeds, lenient `Parse` returns the same. -/
theorem parse_strict_ok_soft (input : Str) (cs : Cookies) (h : Parse false input = .ok cs) :
    Parse true input = .ok cs := by
  have hcs := parse_ok_eq false input cs h
  unfold Parse at h ⊢
  split at h
  · simp at h
  · rename_i cookies hloop
    split at h
    · simp at h
    · rename_i herr
      have ht : (scanLines input).tokens = textLines input :=
        scanPieces_tokens_of_err_none _ herr
      rw [ht, parseLoop_soft]
      simp [hcs]

theorem count_lines (lines : List Str) :
    (lines.filter (fun l => !isCommentLine l)).length =
      (lines.filter isRecordLine).length + (lines.filter isShortLine).length := by
  induction lines with
  | nil => rfl
  | cons line rest ih =>
    rcases line_cases line with hc | hc | hc
    · simp [List.filter_cons, hc, isRecordLine_of_comment line hc,
        isShortLine_of_comment line hc, ih]
    · simp [List.filter_cons, hc, isRecordLine_of_short line hc,
        isCommentLine_of_short line hc, ih]
      omega
    · simp [List.filter_cons, hc, isShortLine_of_record line hc,
        isCommentLine_of_record line hc, ih]
      omega

/-- C18 fails as stated: on the input `#` followed by 65535 bytes `a`, one
line that begins with `'#'`, strict `Parse` fails with the scanner error
`ErrTooLong`, and so does lenient `Parse`: strict mode fails though the input
has no line that is not empty and does not begin with `'#'` to omit. -/
theorem strict_vs_lenient_counterexample :
    (hash :: List.replicate 65535 97 : Str).head? = some hash ∧
    newline ∉ (hash :: List.replicate 65535 97 : Str) ∧
    Parse false (hash :: List.replicate 65535 97) = .error .ErrTooLong ∧
    Parse true (hash :: List.replicate 65535 97) = .error .ErrTooLong := by
  have hn : newline ∉ (hash :: List.replicate 65535 97 : Str) := by
    intro hm
    rcases List.mem_cons.mp hm with e | e
    · exact absurd e (by decide)
    · exact absurd (List.eq_of_mem_replicate e) (by decide)
  have hlen : MaxScanTokenSize ≤ (hash :: List.replicate 65535 97 : Str).length := by
    rw [List.length_cons, List.length_replicate]
    decide
  exact ⟨rfl, hn, parse_too_long false _ hn hlen, parse_too_long true _ hn hlen⟩

/-- C18, amended: for every input, when strict `Parse` succeeds, lenient
`Parse` succeeds with the same collection; and for every input whose lines,
each counted with the final `'\r'` that the scanner strips from it, are all
shorter than 65536 bytes, strict `Parse` fails exactly when a line is short
(not empty, no `'#'` first, fewer than 7 fields), which is exactly when the
lenient result has fewer records than the input has lines that are not empty
and do not begin with `'#'`. -/
theorem strict_only_rejects (input : Str) :
    (∀ cs : Cookies, Parse false input = .ok cs → Parse true input = .ok cs) ∧
    (linesFit input →
      ((∃ err, Parse false input = .error err) ↔
        ∃ l ∈ textLines input, isShortLine l = true) ∧
      ((∃ err, Parse false input = .error err) ↔
        ∃ cs, Parse true input = .ok cs ∧
          cs.length < ((textLines input).filter (fun l => !isCommentLine l)).length)) := by
  refine ⟨fun cs h => parse_strict_ok_soft input cs h, ?_⟩
  intro hfit
  have hiff : (∃ err, Parse false input = .error err) ↔
      ∃ l ∈ textLines input, isShortLine l = true := by
    constructor
    · intro ⟨err, herr⟩
      by_contra hno
      have hns : ∀ l ∈ textLines input, isShortLine l = false := by
        intro l hl
        cases hs : isShortLine l with
        | false => rfl
        | true => exact absurd ⟨l, hl, hs⟩ hno
      rw [parse_of_fit_no_short false input hfit hns] at herr
      simp at herr
    · intro ⟨l, hl, hs⟩
      cases hp : Parse false input with
      | error err => exact ⟨err, rfl⟩
      | ok cs =>
        rw [parse_strict_ok_no_short input cs hp l hl] at hs
        exact absurd hs (by simp)
  refine ⟨hiff, hiff.trans ?_⟩
  rw [parse_soft_of_fit input hfit]
  constructor
  · intro ⟨l, hl, hs⟩
    refine ⟨_, rfl, ?_⟩
    rw [List.length_map, count_lines]
    have hmem : l ∈ (textLines input).filter isShortLine := List.mem_filter.mpr ⟨hl, hs⟩
    have hpos := List.length_pos_of_mem hmem
    omega
  · intro ⟨cs, hcs, hlt⟩
    simp only [Except.ok.injEq] at hcs
    subst hcs
    rw [List.length_map, count_lines] at hlt
    have hpos : 0 < ((textLines input).filter isShortLine).length := by omega
    obtain ⟨l, hl⟩ := List.exists_mem_of_length_pos hpos
    exact ⟨l, (List.mem_filter.mp hl).1, (List.mem_filter.mp hl).2⟩

/-- C18 amended, at a file of a well-formed line and a line of 3 fields:
strict `Parse` fails, and the lenient result has one record for two lines. -/
theorem strict_only_rejects_witness :
    (∃ err, Parse false (bytes "a.org\tTRUE\t/\tTRUE\t0\tid\t7\nx\ty\tz\n") = .error err) ∧
    (∃ cs, Parse true (bytes "a.org\tTRUE\t/\tTRUE\t0\tid\t7\nx\ty\tz\n") = .ok cs ∧
      cs.length < ((textLines (bytes "a.org\tTRUE\t/\tTRUE\t0\tid\t7\nx\ty\tz\n")).filter
        (fun l => !isCommentLine l)).length) ∧
    Parse true (bytes "#c\na.org\tTRUE\t/\tTRUE\t0\tid\t7\n") =
      .ok [recordOf (bytes "a.org\tTRUE\t/\tTRUE\t0\tid\t7")] :=
  ⟨((strict_only_rejects (bytes "a.org\tTRUE\t/\tTRUE\t0\tid\t7\nx\ty\tz\n")).2
      (by unfold linesFit; decide)).1.mpr ⟨bytes "x\ty\tz", by decide, by decide⟩,
   ((strict_only_rejects (bytes "a.org\tTRUE\t/\tTRUE\t0\tid\t7\nx\ty\tz\n")).2
      (by unfold linesFit; decide)).2.mp ⟨_, by rfl⟩,
   (strict_only_rejects (bytes "#c\na.org\tTRUE\t/\tTRUE\t0\tid\t7\n")).1 _ (by rfl)⟩

/-! ## C13 -/

theorem newline_not_mem_field (input l : Str) (k : Nat) (hl : l ∈ textLines input) :
    newline ∉ field l k := by
  intro hm
  obtain ⟨x, hx, hbx⟩ := mem_of_mem_getD _ k newline hm
  have hbl : newline ∈ l := mem_of_mem_split tab l x hx newline hbx
  obtain ⟨p, hp, rfl⟩ := mem_linesOfPieces _ l hl
  exact not_mem_of_mem_split newline input p hp (mem_of_mem_dropCR p newline hbl)

theorem not_mem_cookie_string (timeString : Time → Str) (c : Cookie) (b : UInt8)
    (hb : b = tab ∨ b = newline) (h1 : b ∉ c.Name) (h2 : b ∉ c.Value) (h3 : b ∉ c.Domain)
    (h4 : b ∉ c.Path) (h5 : b ∉ timeString c.Expires) : b ∉ Cookie.String timeString c := by
  have l1 : b ∉ bytes "=" := by rcases hb with rfl | rfl <;> decide
  have l2 : b ∉ bytes "; Domain=" := by rcases hb with rfl | rfl <;> decide
  have l3 : b ∉ bytes "; Path=" := by rcases hb with rfl | rfl <;> decide
  have l4 : b ∉ bytes "; Expires=" := by rcases hb with rfl | rfl <;> decide
  have l5 : b ∉ bytes "; Secure=" := by rcases hb with rfl | rfl <;> decide
  have l6 : b ∉ bytes "; HttpOnly=" := by rcases hb with rfl | rfl <;> decide
  have l7 : ∀ v : Bool, b ∉ formatBool v := by
    intro v
    rcases hb with rfl | rfl <;> cases v <;> decide
  unfold Cookie.String
  simp only [List.mem_append, not_or]
  exact ⟨⟨⟨⟨⟨⟨⟨⟨⟨⟨⟨⟨h1, l1⟩, h2⟩, l2⟩, h3⟩, l3⟩, h4⟩, l4⟩, h5⟩, l5⟩, l7 _⟩, l6⟩, l7 _⟩

theorem bytes_newline : bytes "\n" = [newline] := by decide

/-- The pieces of a rendering whose lines hold no newline: the lines, and the
empty piece after the last newline. -/
theorem split_string (timeString : Time → Str) (cs : Cookies)
    (h : ∀ c ∈ cs, newline ∉ Cookie.String timeString c) :
    Split (Cookies.String timeString cs) newline =
      cs.map (Cookie.String timeString) ++ [[]] := by
  induction cs with
  | nil => rfl
  | cons c cs ih =>
    rw [string_cons, bytes_newline, List.append_assoc, List.singleton_append,
      split_append_sep, split_no_sep newline _ (h c (by simp)),
      ih (fun d hd => h d (List.mem_cons_of_mem _ hd))]
    rfl

theorem split_append_no_sep (sep : UInt8) (pre rest : Str) (h : sep ∉ pre) :
    ∃ first others, Split (pre ++ rest) sep = (pre ++ first) :: others := by
  induction pre with
  | nil =>
    have hne := split_ne_nil rest sep
    cases hs : Split rest sep with
    | nil => exact absurd hs hne
    | cons q qs => exact ⟨q, qs, by simpa using hs⟩
  | cons x pre ih =>
    have hx : ¬ x = sep := fun e => h (by simp [e])
    obtain ⟨first, others, hs⟩ := ih (fun e => h (List.mem_cons_of_mem _ e))
    refine ⟨first, others, ?_⟩
    rw [List.cons_append, Split, if_neg hx, hs]
    rfl

/-- An input that begins with 65536 bytes or more without a newline: the
scanner fails. -/
theorem parse_too_long_start (m : Bool) (pre rest : Str) (h1 : newline ∉ pre)
    (h2 : MaxScanTokenSize ≤ pre.length) : Parse m (pre ++ rest) = .error .ErrTooLong := by
  obtain ⟨first, others, hs⟩ := split_append_no_sep newline pre rest h1
  rw [parse_eq_parsePieces, hs]
  apply parsePieces_too_long
  rw [List.length_append]
  omega

/-- The record and the rendering of the line of a long domain and six other
fields, all empty. -/
theorem long_domain_line (m : Bool) (domain : Str) (timeString : Time → Str)
    (hnl : newline ∉ domain) (htab : tab ∉ domain) (hne : domain ≠ [])
    (hhash : domain.head? ≠ some hash)
    (hfit : domain.length + 6 < MaxScanTokenSize)
    (hlong : MaxScanTokenSize ≤ domain.length + 10) :
    Parse m (domain ++ [tab, tab, tab, tab, tab, tab]) =
      .ok [recordOf (domain ++ [tab, tab, tab, tab, tab, tab])] ∧
    Parse true (Cookies.String timeString
      [recordOf (domain ++ [tab, tab, tab, tab, tab, tab])]) = .error .ErrTooLong := by
  have hsplit : Split (domain ++ [tab, tab, tab, tab, tab, tab]) tab =
      [domain, [], [], [], [], [], []] := by
    rw [split_append_sep, split_no_sep tab domain htab]
    rfl
  constructor
  · apply parse_single_record_line
    · intro hm
      rcases List.mem_append.mp hm with e | e
      · exact hnl e
      · exact absurd e (by decide)
    · have hlast : ([tab, tab, tab, tab, tab, tab] : Str).getLast? = some tab := by decide
      have htc : ¬ tab = carriageReturn := by decide
      rw [List.getLast?_append, hlast]
      simpa using htc
    · rw [List.length_append]
      exact hfit
    · unfold isRecordLine
      rw [hsplit]
      have hh : (domain ++ [tab, tab, tab, tab, tab, tab]).head? = domain.head? := by
        cases domain with
        | nil => exact absurd rfl hne
        | cons b r => rfl
      rw [hh]
      simp [hhash]
  · have hrender : Cookies.String timeString
        [recordOf (domain ++ [tab, tab, tab, tab, tab, tab])] =
          (bytes "=; Domain=" ++ domain) ++ (bytes "; Path=; Expires=" ++
            timeString (Time.Unix 1405544146 0) ++
            bytes "; Secure=false; HttpOnly=false\n") := by
      have hd : (recordOf (domain ++ [tab, tab, tab, tab, tab, tab])) =
          { Domain := domain, Expires := Time.Unix 1405544146 0, HttpOnly := false,
            Name := [], Path := [], Secure := false, Value := [] } := by
        unfold recordOf field
        rw [hsplit]
        rfl
      rw [hd, string_cons]
      have e1 : bytes "=; Domain=" = bytes "=" ++ bytes "; Domain=" := by decide
      have e2 : bytes "; Path=; Expires=" = bytes "; Path=" ++ bytes "; Expires=" := by decide
      have e3 : bytes "; Secure=false; HttpOnly=false\n" =
          bytes "; Secure=" ++ bytes "false" ++ bytes "; HttpOnly=" ++ bytes "false" ++
            bytes "\n" := by decide
      rw [e1, e2, e3]
      simp [Cookie.String, formatBool, Cookies.String]
    rw [hrender]
    apply parse_too_long_start
    · intro hm
      rcases List.mem_append.mp hm with e | e
      · exact absurd e (by decide)
      · exact hnl e
    · rw [List.length_append]
      have hl : (bytes "=; Domain=").length = 10 := by decide
      omega

theorem not_mem_repeat (n : Nat) (a b : UInt8) (h : b ≠ a) :
    b ∉ a :: List.replicate n a := by
  intro hm
  rcases List.mem_cons.mp hm with e | e
  · exact h e
  · exact h (List.eq_of_mem_replicate e)

/-- C13 fails as stated: the line of a domain of 65529 bytes `a` and six empty
fields, 65535 bytes long, is parsed to one record in strict mode; the
rendering of this record begins with more than 65536 bytes without a newline,
so lenient `Parse` returns on it the scanner error `ErrTooLong`, not the empty
collection, whatever `time.Time.String` returns. -/
theorem rendering_counterexample :
    Parse false ((97 :: List.replicate 65528 97) ++ [tab, tab, tab, tab, tab, tab]) =
      .ok [recordOf ((97 :: List.replicate 65528 97) ++ [tab, tab, tab, tab, tab, tab])] ∧
    ∀ timeString : Time → Str,
      Parse true (Cookies.String timeString
        [recordOf ((97 :: List.replicate 65528 97) ++ [tab, tab, tab, tab, tab, tab])]) =
        .error .ErrTooLong := by
  have hlen : (97 :: List.replicate 65528 97 : Str).length = 65529 := by
    rw [List.length_cons, List.length_replicate]
  have hfacts := fun (m : Bool) (timeString : Time → Str) =>
    long_domain_line m (97 :: List.replicate 65528 97) timeString
      (not_mem_repeat 65528 97 newline (by decide))
      (not_mem_repeat 65528 97 tab (by decide))
      (List.cons_ne_nil _ _) (by rw [List.head?_cons]; decide)
      (by rw [hlen]; decide) (by rw [hlen]; decide)
  exact ⟨(hfacts false (fun _ => [])).1, fun timeString => (hfacts true timeString).2⟩

/-! ## The errors of strict Parse -/

theorem parseLoop_error_short (lines : List Str) (acc : Cookies) (e : ParseError)
    (h : parseLoop false lines acc = .error e) :
    ∃ l ∈ lines, isShortLine l = true ∧ e = .invalidLine l := by
  induction lines generalizing acc with
  | nil => simp [parseLoop] at h
  | cons line rest ih =>
    rcases line_cases line with hc | hc | hc
    · rw [parseLoop_cons_comment false line rest acc hc] at h
      obtain ⟨l, hl, hs, he⟩ := ih acc h
      exact ⟨l, List.mem_cons_of_mem _ hl, hs, he⟩
    · rw [parseLoop_cons_short false line rest acc hc] at h
      simp only [Bool.false_eq_true, if_false, Except.error.injEq] at h
      exact ⟨line, by simp, hc, h.symm⟩
    · rw [parseLoop_cons_record false line rest acc hc] at h
      obtain ⟨l, hl, hs, he⟩ := ih _ h
      exact ⟨l, List.mem_cons_of_mem _ hl, hs, he⟩

/-- The scanner delivers lines of the text only. -/
theorem scanPieces_tokens_subset (ps : List Str) (l : Str)
    (h : l ∈ (scanPieces ps).tokens) : l ∈ linesOfPieces ps := by
  induction ps with
  | nil => simp [scanPieces] at h
  | cons p rest ih =>
    by_cases hp : MaxScanTokenSize ≤ p.length
    · rw [scanPieces_too_long p rest hp] at h
      simp at h
    · cases rest with
      | nil =>
        rw [scanPieces, if_neg hp] at h
        rw [linesOfPieces]
        split at h
        · simp at h
        · rename_i hne
          rw [if_neg hne]
          exact h
      | cons q qs =>
        rw [scanPieces, if_neg hp] at h
        rw [linesOfPieces]
        rcases List.mem_cons.mp h with e | e
        · rw [e]
          exact List.mem_cons_self _ _
        · exact List.mem_cons_of_mem _ (ih e)

/-- The errors of strict `Parse`: a line too long for the scanner, or a short
line of the input. -/
theorem parse_strict_error_cases (input : Str) (e : ParseError)
    (h : Parse false input = .error e) :
    e = .ErrTooLong ∨ ∃ l ∈ textLines input, isShortLine l = true ∧ e = .invalidLine l := by
  unfold Parse at h
  split at h
  · rename_i e2 hloop
    simp only [Except.error.injEq] at h
    subst h
    obtain ⟨l, hl, hs, he⟩ := parseLoop_error_short _ [] _ hloop
    exact Or.inr ⟨l, scanPieces_tokens_subset _ l hl, hs, he⟩
  · split at h
    · rename_i e2 herr
      simp only [Except.error.injEq] at h
      subst h
      exact Or.inl (scanPieces_err _ _ herr)
    · simp at h

/-- Strict `Parse` fails on every input that has a short line. -/
theorem parse_strict_fails_of_short (input l : Str) (hl : l ∈ textLines input)
    (hs : isShortLine l = true) :
    ∃ err, Parse false input = .error err ∧
      (err = .ErrTooLong ∨
        ∃ bad ∈ textLines input, isShortLine bad = true ∧ err = .invalidLine bad) := by
  cases hp : Parse false input with
  | error err => exact ⟨err, rfl, parse_strict_error_cases input err hp⟩
  | ok cs =>
    rw [parse_strict_ok_no_short input cs hp l hl] at hs
    exact absurd hs (by simp)

/-! ## C3 -/

/-- C3, amended: in strict mode, on every input that has a line that is not
empty, does not start with `'#'` and has fewer than 7 tab-separated fields,
`Parse` returns an error and no collection, whatever records the lines before
gave: the scanner error `ErrTooLong` or the invalid-line error of such a line.
With every line counted with the final `'\r'` that the scanner strips from it:
when the first such line and every line before it are shorter than 65536
bytes, the error is the invalid-line error carrying the first such line; when
a line of 65536 bytes or more comes no later than the first such line, the
error is `ErrTooLong`. -/
theorem strict_first_short_line (input : Str) :
    (∀ l ∈ textLines input, isShortLine l = true →
      ∃ err, Parse false input = .error err ∧
        (err = .ErrTooLong ∨
          ∃ bad ∈ textLines input, isShortLine bad = true ∧ err = .invalidLine bad)) ∧
    (∀ (before : List Str) (bad : Str) (after : List Str),
      Split input newline = before ++ bad :: after →
      (∀ p ∈ before, p.length < MaxScanTokenSize) → bad.length < MaxScanTokenSize →
      (∀ p ∈ before, isShortLine (dropCR p) = false) → isShortLine (dropCR bad) = true →
      Parse false input = .error (.invalidLine (dropCR bad))) ∧
    (∀ (before : List Str) (long : Str) (after : List Str),
      Split input newline = before ++ long :: after →
      (∀ p ∈ before, p.length < MaxScanTokenSize) → MaxScanTokenSize ≤ long.length →
      (∀ p ∈ before, isShortLine (dropCR p) = false) →
      Parse false input = .error .ErrTooLong) := by
  refine ⟨fun l hl hs => parse_strict_fails_of_short input l hl hs, ?_, ?_⟩
  · intro before bad after hsplit hfit hfitBad hbefore hbad
    obtain ⟨more, hmore⟩ :=
      scanPieces_head_token bad after hfitBad (isShortLine_ne_nil _ hbad)
    have htok : (scanLines input).tokens = before.map dropCR ++ dropCR bad :: more := by
      unfold scanLines
      rw [hsplit, scanPieces_append before _ hfit (by simp), hmore]
    have hpre : ∀ l ∈ before.map dropCR, isShortLine l = false := by
      intro l hl
      obtain ⟨p, hp, rfl⟩ := List.mem_map.mp hl
      exact hbefore p hp
    unfold Parse
    rw [htok, parseLoop_first_short _ _ _ [] hpre hbad]
  · intro before long after hsplit hfit hlong hbefore
    have hscan : scanLines input =
        { tokens := before.map dropCR, err := some .ErrTooLong } := by
      unfold scanLines
      rw [hsplit, scanPieces_append before _ hfit (by simp),
        scanPieces_too_long long after hlong]
      simp
    have hpre : ∀ l ∈ before.map dropCR, isShortLine l = false := by
      intro l hl
      obtain ⟨p, hp, rfl⟩ := List.mem_map.mp hl
      exact hbefore p hp
    unfold Parse
    rw [hscan]
    simp only
    rw [parseLoop_no_short false _ [] hpre]

/-- C3 amended, at a file of a well-formed line, the line `short` and the
line `b`, with CRLF line ends: the error carries the line `short`. -/
theorem strict_first_short_line_witness :
    Parse false (bytes "a.org\tTRUE\t/\tTRUE\t0\tid\t7\r\nshort\r\nb\r\n") =
      .error (.invalidLine (bytes "short")) ∧
    ∃ err, Parse false (bytes "a.org\tTRUE\t/\tTRUE\t0\tid\t7\r\nshort\r\nb\r\n") =
      .error err ∧
      (err = .ErrTooLong ∨
        ∃ bad ∈ textLines (bytes "a.org\tTRUE\t/\tTRUE\t0\tid\t7\r\nshort\r\nb\r\n"),
          isShortLine bad = true ∧ err = .invalidLine bad) :=
  ⟨(strict_first_short_line
      (bytes "a.org\tTRUE\t/\tTRUE\t0\tid\t7\r\nshort\r\nb\r\n")).2.1
      [bytes "a.org\tTRUE\t/\tTRUE\t0\tid\t7\r"] (bytes "short\r") [bytes "b\r", []]
      (by rfl) (by decide) (by decide) (by decide) (by decide),
   (strict_first_short_line
      (bytes "a.org\tTRUE\t/\tTRUE\t0\tid\t7\r\nshort\r\nb\r\n")).1
      (bytes "short") (by decide) (by decide)⟩

/-! ## C16, amended -/

/-- C16, amended: a line that is no comment and has more than 7 tab-separated
fields has the record of the line cut after its first seven fields: the value
is field 6 alone, without a tab, and what follows the seventh tab is dropped.
The loop of `Parse` accepts the line in both modes. In every input that has
the line and whose lines, each counted with the final `'\r'` that the scanner
strips from it, are all shorter than 65536 bytes, `Parse` accepts the line in
both modes: lenient `Parse` returns a collection with this record, and strict
`Parse` returns a collection with this record unless it fails with the
invalid-line error of another line, one with fewer than 7 fields. Whenever
`Parse` succeeds, the record at the place of the line is this record. -/
theorem extra_fields_are_dropped (line : Str) (hfields : 7 < (Split line tab).length)
    (hcomment : isCommentLine line = false) :
    (∀ (m : Bool) (rest : List Str) (acc : Cookies),
      parseLoop m (line :: rest) acc = parseLoop m rest (acc ++ [recordOf (firstSeven line)]) ∧
      parseLoop m (firstSeven line :: rest) acc =
        parseLoop m rest (acc ++ [recordOf (firstSeven line)])) ∧
    recordOf line = recordOf (firstSeven line) ∧
    Split (firstSeven line) tab = (Split line tab).take 7 ∧
    (recordOf line).Value = (Split line tab).getD 6 [] ∧
    tab ∉ (recordOf line).Value ∧
    (∀ input : Str, linesFit input → line ∈ textLines input →
      (∃ cs, Parse true input = .ok cs ∧ recordOf (firstSeven line) ∈ cs) ∧
      ((∃ cs, Parse false input = .ok cs ∧ recordOf (firstSeven line) ∈ cs) ∨
        (∃ bad ∈ textLines input, isShortLine bad = true ∧ bad ≠ line ∧
          Parse false input = .error (.invalidLine bad)))) ∧
    (∀ (m : Bool) (input : Str) (cs : Cookies), Parse m input = .ok cs →
      ∀ i : Nat, ((textLines input).filter isRecordLine)[i]? = some line →
        cs[i]? = some (recordOf (firstSeven line))) ∧
    (∀ m : Bool, newline ∉ line → line.getLast? ≠ some carriageReturn →
      line.length < MaxScanTokenSize → Parse m line = .ok [recordOf (firstSeven line)]) := by
  have hrec : isRecordLine line = true := isRecordLine_of line hcomment (by omega)
  obtain ⟨hsplit, hne, hhead⟩ := firstSeven_facts line hfields
  have hrec7 : isRecordLine (firstSeven line) = true := by
    unfold isCommentLine at hcomment
    unfold isRecordLine
    rw [hsplit, hhead, List.length_take]
    simp only [Bool.or_eq_false_iff, decide_eq_false_iff_not] at hcomment
    simp only [Bool.and_eq_true, decide_eq_true_eq]
    exact ⟨⟨hne, hcomment.2⟩, by omega⟩
  have heq := recordOf_firstSeven line hfields
  have hmem : ∀ (m : Bool) (input : Str) (cs : Cookies), Parse m input = .ok cs →
      line ∈ textLines input → recordOf (firstSeven line) ∈ cs := by
    intro m input cs hcs hl
    rw [parse_ok_eq m input cs hcs, heq]
    exact List.mem_map.mpr ⟨line, List.mem_filter.mpr ⟨hl, hrec⟩, rfl⟩
  refine ⟨?_, heq.symm, hsplit, rfl, tab_not_mem_field line 6, ?_, ?_, ?_⟩
  · intro m rest acc
    constructor
    · rw [parseLoop_cons_record m line rest acc hrec, heq]
    · rw [parseLoop_cons_record m _ rest acc hrec7]
  · intro input hfit hl
    constructor
    · exact ⟨_, parse_soft_of_fit input hfit,
        hmem true input _ (parse_soft_of_fit input hfit) hl⟩
    · cases hp : Parse false input with
      | ok cs => exact Or.inl ⟨cs, rfl, hmem false input cs hp hl⟩
      | error err =>
        rcases parse_strict_error_cases input err hp with he | ⟨bad, hbad, hs, he⟩
        · have herr := scanLines_err_none input hfit
          unfold Parse at hp
          rw [herr] at hp
          split at hp
          · rename_i e2 hloop
            simp only [Except.error.injEq] at hp
            subst hp
            obtain ⟨l2, _, _, he2⟩ := parseLoop_error_short _ [] _ hloop
            rw [he2] at he
            exact ParseError.noConfusion he
          · simp at hp
        · refine Or.inr ⟨bad, hbad, hs, ?_, by rw [he]⟩
          intro hbl
          rw [hbl, isShortLine_of_record line hrec] at hs
          exact absurd hs (by simp)
  · intro m input cs hcs i hi
    rw [parse_ok_eq m input cs hcs, List.getElem?_map, hi, heq]
    rfl
  · intro m hnl hcr hfit
    rw [heq]
    exact parse_single_record_line m line hnl hcr hfit hrec

/-- C16 amended, at a line of 9 fields, alone and between a comment and a
line of 7 fields with CRLF line ends: the record is the record of its first 7
fields, with the value `v`. -/
theorem extra_fields_are_dropped_witness :
    Parse false (bytes "a.org\tTRUE\t/\tTRUE\t0\tid\tv\tmore\tand more") =
      .ok [recordOf (firstSeven (bytes "a.org\tTRUE\t/\tTRUE\t0\tid\tv\tmore\tand more"))] ∧
    firstSeven (bytes "a.org\tTRUE\t/\tTRUE\t0\tid\tv\tmore\tand more") =
      bytes "a.org\tTRUE\t/\tTRUE\t0\tid\tv" ∧
    (recordOf (bytes "a.org\tTRUE\t/\tTRUE\t0\tid\tv\tmore\tand more")).Value = bytes "v" ∧
    (∃ cs, Parse true
        (bytes "#c\r\na.org\tTRUE\t/\tTRUE\t0\tid\tv\tmore\tand more\r\nb.org\tTRUE\t/\tTRUE\t0\tk\tw\r\n") =
        .ok cs ∧
      recordOf (firstSeven (bytes "a.org\tTRUE\t/\tTRUE\t0\tid\tv\tmore\tand more")) ∈ cs) :=
  ⟨(extra_fields_are_dropped (bytes "a.org\tTRUE\t/\tTRUE\t0\tid\tv\tmore\tand more")
      (by decide) (by decide)).2.2.2.2.2.2.2 false (by decide) (by decide) (by decide),
   by decide, by decide,
   ((extra_fields_are_dropped (bytes "a.org\tTRUE\t/\tTRUE\t0\tid\tv\tmore\tand more")
      (by decide) (by decide)).2.2.2.2.2.1
      (bytes "#c\r\na.org\tTRUE\t/\tTRUE\t0\tid\tv\tmore\tand more\r\nb.org\tTRUE\t/\tTRUE\t0\tk\tw\r\n")
      (by unfold linesFit; decide) (by decide)).1⟩

/-! ## C13, amended -/

theorem scanPieces_err_of_long (ps : List Str) (h : ∃ p ∈ ps, MaxScanTokenSize ≤ p.length) :
    (scanPieces ps).err = some .ErrTooLong := by
  induction ps with
  | nil =>
    obtain ⟨p, hp, _⟩ := h
    simp at hp
  | cons q rest ih =>
    by_cases hq : MaxScanTokenSize ≤ q.length
    · rw [scanPieces_too_long q rest hq]
    · obtain ⟨p, hp, hlong⟩ := h
      have hrest : p ∈ rest := by
        rcases List.mem_cons.mp hp with e | e
        · rw [e] at hlong
          exact absurd hlong hq
        · exact e
      cases rest with
      | nil => simp at hrest
      | cons r rs =>
        rw [scanPieces, if_neg hq]
        exact ih ⟨p, hrest, hlong⟩

/-- Lenient `Parse` returns the error of the scanner when there is one. -/
theorem parse_soft_of_err (input : Str) (e : ParseError) (h : (scanLines input).err = some e) :
    Parse true input = .error e := by
  unfold Parse
  rw [parseLoop_soft, h]

/-- C13, amended: for a collection `cs` that `Parse` returns, in either mode,
when `time.Time.String` returns a text without a tab for the expiry of the
records: no rendered line holds a tab; lenient `Parse` on `Cookies.String` of
`cs` returns no record: the empty collection when every rendered line is
shorter than 65536 bytes, the scanner error `ErrTooLong` when a rendered line
is not (the text of the expiry being without a newline); `Read` on what
`Write` has written leaves the collection empty; and a collection that is not
empty does not come back. -/
theorem rendering_is_not_parsed (timeString : Time → Str) (softMode : Bool) (input : Str)
    (cs : Cookies) (h : Parse softMode input = .ok cs)
    (htab : tab ∉ timeString (Time.Unix 1405544146 0)) :
    (∀ c ∈ cs, tab ∉ Cookie.String timeString c) ∧
    (∀ parsed : Cookies, Parse true (Cookies.String timeString cs) = .ok parsed →
      parsed = []) ∧
    (Parse true (Cookies.String timeString cs) = .ok [] ∨
      Parse true (Cookies.String timeString cs) = .error .ErrTooLong) ∧
    (newline ∉ timeString (Time.Unix 1405544146 0) →
      (∀ c ∈ cs, (Cookie.String timeString c).length < MaxScanTokenSize) →
      Parse true (Cookies.String timeString cs) = .ok []) ∧
    (newline ∉ timeString (Time.Unix 1405544146 0) →
      (∃ c ∈ cs, MaxScanTokenSize ≤ (Cookie.String timeString c).length) →
      Parse true (Cookies.String timeString cs) = .error .ErrTooLong) ∧
    (∀ old : Cookies,
      (Cookies.Read old (.ok (Cookies.Write timeString cs bufferWriter []).1) true).1 = []) ∧
    (cs ≠ [] → ∀ old : Cookies,
      (Cookies.Read old (.ok (Cookies.Write timeString cs bufferWriter []).1) true).1 ≠ cs) := by
  have hrec : ∀ c ∈ cs, ∃ l ∈ textLines input, c = recordOf l := by
    intro c hc
    rw [parse_ok_eq softMode input cs h] at hc
    obtain ⟨l, hl, rfl⟩ := List.mem_map.mp hc
    exact ⟨l, (List.mem_filter.mp hl).1, rfl⟩
  have htabc : ∀ c ∈ cs, tab ∉ Cookie.String timeString c := by
    intro c hc
    obtain ⟨l, _, rfl⟩ := hrec c hc
    exact not_mem_cookie_string timeString _ tab (Or.inl rfl) (tab_not_mem_field l 5)
      (tab_not_mem_field l 6) (tab_not_mem_field l 0) (tab_not_mem_field l 2) htab
  have htabs : tab ∉ Cookies.String timeString cs := by
    clear hrec h
    induction cs with
    | nil => simp [Cookies.String]
    | cons c cs ih =>
      rw [string_cons, bytes_newline]
      intro hm
      rcases List.mem_append.mp hm with e | e
      · rcases List.mem_append.mp e with e | e
        · exact htabc c (by simp) e
        · exact absurd (List.mem_singleton.mp e) (by decide)
      · exact ih (fun d hd => htabc d (List.mem_cons_of_mem _ hd)) e
  have hnorec : (textLines (Cookies.String timeString cs)).filter isRecordLine = [] := by
    rw [List.filter_eq_nil_iff]
    intro l hl
    obtain ⟨p, hp, rfl⟩ := mem_linesOfPieces _ l hl
    have ht : tab ∉ dropCR p :=
      fun e => htabs (mem_of_mem_split newline _ p hp tab (mem_of_mem_dropCR p tab e))
    unfold isRecordLine
    rw [split_no_sep tab _ ht]
    simp
  have hok : ∀ parsed : Cookies, Parse true (Cookies.String timeString cs) = .ok parsed →
      parsed = [] := by
    intro parsed hp
    rw [parse_ok_eq true _ parsed hp, hnorec]
    rfl
  have hcases : Parse true (Cookies.String timeString cs) = .ok [] ∨
      Parse true (Cookies.String timeString cs) = .error .ErrTooLong := by
    cases hp : Parse true (Cookies.String timeString cs) with
    | ok parsed => rw [hok parsed hp]; exact Or.inl rfl
    | error err =>
      rcases parse_error_cases true _ err hp with ⟨line, hl⟩ | hl
      · unfold Parse at hp
        rw [parseLoop_soft] at hp
        simp only at hp
        split at hp
        · rename_i e herr
          simp only [Except.error.injEq] at hp
          rw [← hp, scanPieces_err _ _ herr] at hl
          exact ParseError.noConfusion hl
        · simp at hp
      · rw [hl]; exact Or.inr rfl
  have hnlc : newline ∉ timeString (Time.Unix 1405544146 0) →
      ∀ c ∈ cs, newline ∉ Cookie.String timeString c := by
    intro hnl c hc
    obtain ⟨l, hl, rfl⟩ := hrec c hc
    exact not_mem_cookie_string timeString _ newline (Or.inr rfl)
      (newline_not_mem_field input l 5 hl) (newline_not_mem_field input l 6 hl)
      (newline_not_mem_field input l 0 hl) (newline_not_mem_field input l 2 hl) hnl
  have hread : ∀ old : Cookies,
      (Cookies.Read old (.ok (Cookies.Write timeString cs bufferWriter []).1) true).1 = [] := by
    intro old
    unfold Cookies.Read Cookies.Write bufferWriter
    simp only [List.nil_append]
    rcases hcases with hp | hp <;> rw [hp]
  refine ⟨htabc, hok, hcases, ?_, ?_, hread, ?_⟩
  · intro hnl hfit
    have hsplit := split_string timeString cs (hnlc hnl)
    have hlinesfit : linesFit (Cookies.String timeString cs) := by
      intro p hp
      rw [hsplit] at hp
      rcases List.mem_append.mp hp with e | e
      · obtain ⟨c, hc, rfl⟩ := List.mem_map.mp e
        exact hfit c hc
      · rw [List.mem_singleton.mp e]
        decide
    rw [parse_soft_of_fit _ hlinesfit, hnorec]
    rfl
  · intro hnl hlong
    have hsplit := split_string timeString cs (hnlc hnl)
    apply parse_soft_of_err
    unfold scanLines
    rw [hsplit]
    apply scanPieces_err_of_long
    obtain ⟨c, hc, hl⟩ := hlong
    exact ⟨Cookie.String timeString c,
      List.mem_append.mpr (Or.inl (List.mem_map.mpr ⟨c, hc, rfl⟩)), hl⟩
  · intro hne old
    rw [hread old]
    exact fun e => hne e.symm

/-- C13 amended, at a file of two well-formed lines and a clock text
without tab and newline: the rendering is parsed to nothing, and `Read` on
what `Write` has written leaves nothing. -/
theorem rendering_is_not_parsed_witness :
    Parse true (Cookies.String (fun _ => bytes "2014-07-16 21:55:46 +0000 UTC")
      [recordOf (bytes "a.org\tTRUE\t/\tTRUE\t0\tid\t7"),
       recordOf (bytes "b.org\tFALSE\t/\tTRUE\t0\t#k\tv")]) = .ok [] ∧
    (Cookies.Read [] (.ok (Cookies.Write (fun _ => bytes "2014-07-16 21:55:46 +0000 UTC")
      [recordOf (bytes "a.org\tTRUE\t/\tTRUE\t0\tid\t7"),
       recordOf (bytes "b.org\tFALSE\t/\tTRUE\t0\t#k\tv")] bufferWriter []).1) true).1 = [] ∧
    Cookies.String (fun _ => bytes "2014-07-16 21:55:46 +0000 UTC")
      [recordOf (bytes "a.org\tTRUE\t/\tTRUE\t0\tid\t7")] =
      bytes "id=7; Domain=a.org; Path=/; Expires=2014-07-16 21:55:46 +0000 UTC; Secure=true; HttpOnly=true\n" :=
  ⟨(rendering_is_not_parsed (fun _ => bytes "2014-07-16 21:55:46 +0000 UTC") false
      (bytes "a.org\tTRUE\t/\tTRUE\t0\tid\t7\nb.org\tFALSE\t/\tTRUE\t0\t#k\tv\n")
      _ (by rfl) (by decide)).2.2.2.1 (by decide) (by decide),
   (rendering_is_not_parsed (fun _ => bytes "2014-07-16 21:55:46 +0000 UTC") false
      (bytes "a.org\tTRUE\t/\tTRUE\t0\tid\t7\nb.org\tFALSE\t/\tTRUE\t0\t#k\tv\n")
      _ (by rfl) (by decide)).2.2.2.2.2.1 [],
   by decide⟩

end CookieEditor
